import Mathlib

/-!
# Verification of the document-extraction core of `backend-api`

Shallow embedding of the field-extraction logic of `src/server.js`
(`normalizeText`, `matchOne`, `pickFirst`, `extractFromVisionText`, and the
`/upload/google-vision` route's analysis value) and of `extractSimple` from the
second server variant, together with a model of the spec's Normalizer
(`normalize`), which has no implementation under `src/`.

Strings are modelled as `List Char` internally (`String.data`), and JavaScript
regular-expression matching is hand-translated, pattern by pattern, into
deterministic scanners that reproduce the backtracking behaviour of each
concrete regex (leftmost match, greedy quantifiers with the give-back steps
that can actually fire for that pattern).  Character classes follow the ASCII
semantics of the source regexes; JS `\s` / `String.prototype.trim` whitespace
is modelled by its ASCII subset (space, TAB, LF, VT, FF, CR).
-/

namespace BackendApi

/-! ## Character classes (by ASCII code, mirroring the source regexes) -/

/-- JS `\s` and `String.prototype.trim` whitespace, ASCII fragment:
space, TAB, LF, VT, FF, CR. -/
def isJsWs (c : Char) : Bool :=
  let n := c.toNat
  n = 32 || n = 9 || n = 10 || n = 11 || n = 12 || n = 13

/-- JS `\w` / word character for `\b`: `[A-Za-z0-9_]`. -/
def isWordChar (c : Char) : Bool :=
  let n := c.toNat
  (65 ≤ n && n ≤ 90) || (97 ≤ n && n ≤ 122) || (48 ≤ n && n ≤ 57) || n = 95

/-- ASCII decimal digit `[0-9]`. -/
def isDigitC (c : Char) : Bool :=
  let n := c.toNat
  48 ≤ n && n ≤ 57

/-- ASCII letter `[A-Za-z]` (what `[A-Z]` with the `i` flag matches). -/
def isAlphaC (c : Char) : Bool :=
  let n := c.toNat
  (65 ≤ n && n ≤ 90) || (97 ≤ n && n ≤ 122)

/-- The class `[:\s]` used between a label and its value. -/
def isSep (c : Char) : Bool :=
  c.toNat = 58 || isJsWs c

/-- The VIN alphabet `[A-HJ-NPR-Z0-9]` (case-sensitive, as in the bare-run
pattern of both `extractFromVisionText` and `extractSimple`). -/
def isVinChar (c : Char) : Bool :=
  let n := c.toNat
  (65 ≤ n && n ≤ 72) || (74 ≤ n && n ≤ 78) || n = 80 || (82 ≤ n && n ≤ 90) ||
    (48 ≤ n && n ≤ 57)

/-- The VIN alphabet under the `i` flag (labelled VIN pattern): additionally
`[a-hj-npr-z]`. -/
def isVinCharCI (c : Char) : Bool :=
  isVinChar c ||
    (let n := c.toNat
     (97 ≤ n && n ≤ 104) || (106 ≤ n && n ≤ 110) || n = 112 || (114 ≤ n && n ≤ 122))

/-- The invoice-number value class `[A-Z0-9\-\/]` under the `i` flag. -/
def isInvValChar (c : Char) : Bool :=
  isAlphaC c || isDigitC c || c.toNat = 45 || c.toNat = 47

/-- ASCII lower-casing, as JS case-insensitive matching canonicalises ASCII. -/
def downChar (c : Char) : Char :=
  if 65 ≤ c.toNat && c.toNat ≤ 90 then Char.ofNat (c.toNat + 32) else c

/-- ASCII upper-casing, modelling `String.prototype.toUpperCase` on ASCII. -/
def upChar (c : Char) : Char :=
  if 97 ≤ c.toNat && c.toNat ≤ 122 then Char.ofNat (c.toNat - 32) else c

/-! ## List-level string helpers -/

/-- Drop trailing characters satisfying `p` (structural formulation). -/
def dropTrail (p : Char → Bool) : List Char → List Char
  | [] => []
  | c :: cs =>
    match dropTrail p cs with
    | [] => if p c then [] else [c]
    | r => c :: r

/-- JS `String.prototype.trim` on char lists (ASCII whitespace model). -/
def jsTrimL (cs : List Char) : List Char :=
  dropTrail isJsWs (cs.dropWhile isJsWs)

/-- JS `String.prototype.trim`. -/
def jsTrim (s : String) : String :=
  ⟨jsTrimL s.data⟩

/-- JS `String.prototype.toUpperCase` (ASCII model). -/
def jsUpper (s : String) : String :=
  ⟨s.data.map upChar⟩

/-- Case-insensitive comparison of one pattern character against one subject
character (pattern literals are written lower-case below). -/
def charCI (l c : Char) : Bool :=
  downChar c = l

/-- Match a literal case-insensitively, returning the rest of the subject. -/
def stripCI : List Char → List Char → Option (List Char)
  | [], cs => some cs
  | _ :: _, [] => none
  | l :: ls, c :: cs => if charCI l c then stripCI ls cs else none

/-- Match a sequence of literal words separated by `\s*` (as in
`Gross\s*weight` or `Place\s*of\s*taking\s*over`); the inter-word `\s*` is
greedy and cannot backtrack because each word starts with a non-space. -/
def stripWordsCI : List (List Char) → List Char → Option (List Char)
  | [], cs => some cs
  | [w], cs => stripCI w cs
  | w :: w' :: ws, cs =>
    match stripCI w cs with
    | none => none
    | some cs1 => stripWordsCI (w' :: ws) (cs1.dropWhile isJsWs)

/-- Take exactly `n` characters of class `p`, returning them and the rest. -/
def takeClass (p : Char → Bool) : Nat → List Char → Option (List Char × List Char)
  | 0, cs => some ([], cs)
  | _ + 1, [] => none
  | n + 1, c :: cs =>
    if p c then (takeClass p n cs).map (fun gr => (c :: gr.1, gr.2)) else none

/-- `\b` on the left edge of a pattern whose first character is a word
character: the previous character (if any) must be a non-word character. -/
def atWordStart : Option Char → Bool
  | none => true
  | some c => !isWordChar c

/-- `\b` after a word character: the next character must be absent or
non-word. -/
def nwNext : List Char → Bool
  | [] => true
  | c :: _ => !isWordChar c

/-- Is the next character a word character (`false` at end of input)? -/
def wNext : List Char → Bool
  | [] => false
  | c :: _ => isWordChar c

/-- Leftmost-match scan driver: try the position matcher `f` at every
position from the left (tracking the previous character for `\b`), as
`String.prototype.match` does with a non-global regex. -/
def scanT {α : Type} (f : Option Char → List Char → Option α) :
    Option Char → List Char → Option α
  | prev, [] => f prev []
  | prev, c :: cs =>
    match f prev (c :: cs) with
    | some r => some r
    | none => scanT f (some c) cs

/-! ## `normalizeText` (src/server.js:68-74)

```js
function normalizeText(t) {
  return (t || "")
    .replace(/\r/g, "\n")
    .replace(/[ \t]+/g, " ")
    .replace(/\n{3,}/g, "\n\n")
    .trim();
}
```
-/

/-- `[ \t]` (the horizontal-whitespace class collapsed by `normalizeText`). -/
def isHT (c : Char) : Bool :=
  c = ' ' || c = '\t'

/-- `.replace(/[ \t]+/g, " ")`: each maximal run of spaces/tabs becomes one
space.  The flag records whether we are inside a run whose space was already
emitted. -/
def collapseHSAux : Bool → List Char → List Char
  | _, [] => []
  | inRun, c :: cs =>
    if isHT c then
      if inRun then collapseHSAux true cs else ' ' :: collapseHSAux true cs
    else c :: collapseHSAux false cs

/-- `.replace(/\n{3,}/g, "\n\n")`: each maximal run of `k ≥ 3` newlines
becomes two; the counter is the number of newlines of the current run already
seen. -/
def collapseNLAux : Nat → List Char → List Char
  | _, [] => []
  | k, c :: cs =>
    if c = '\n' then
      if 2 ≤ k then collapseNLAux (k + 1) cs else '\n' :: collapseNLAux (k + 1) cs
    else c :: collapseNLAux 0 cs

/-- The whole `normalizeText` chain on char lists. -/
def normalizeTextL (cs : List Char) : List Char :=
  jsTrimL (collapseNLAux 0 (collapseHSAux false (cs.map fun c => if c = '\r' then '\n' else c)))

/-- `normalizeText` (src/server.js:68-74). -/
def normalizeText (s : String) : String :=
  ⟨normalizeTextL s.data⟩

/-! ## The field patterns of `extractFromVisionText` (src/server.js:77-177)

Each JS regex is translated into a position matcher (`...Try`, given the
previous character and the suffix at the current position) plus a `String`
wrapper scanning for the leftmost match.  Greedy sub-expressions whose
backtracking can never change the outcome for that particular pattern are
implemented directly as greedy runs; the give-back steps that can fire
(`[:\s]*` before `[^\n]{m,n}`, the optional decimal part, the trailing `\b`
after `[A-Z0-9\-\/]+`, the optional `(?:\s*description)?`) are implemented
explicitly. -/

/-- `/\bVIN[:\s]*([A-HJ-NPR-Z0-9]{17})\b/i` at one position.  `[:\s]*` cannot
give back: a VIN character is never in `[:\s]`. -/
def vinLabeledTry (prev : Option Char) (cs : List Char) : Option (List Char) :=
  if atWordStart prev then
    match stripCI ['v', 'i', 'n'] cs with
    | none => none
    | some cs1 =>
      match takeClass isVinCharCI 17 (cs1.dropWhile isSep) with
      | none => none
      | some (g, r) => if nwNext r then some g else none
  else none

/-- `/\b([A-HJ-NPR-Z0-9]{17})\b/` (no `i` flag) at one position. -/
def vinBareTry (prev : Option Char) (cs : List Char) : Option (List Char) :=
  if atWordStart prev then
    match takeClass isVinChar 17 cs with
    | none => none
    | some (g, r) => if nwNext r then some g else none
  else none

/-- The continuation `\s*(kg)?\b` after the captured number of the
`Gross weight` pattern.  Working through the backtracking of `\s*` and the
optional `(kg)?`, it succeeds exactly when the character following the number
is absent, non-word, or starts `kg` followed by a word boundary. -/
def contKg : List Char → Bool
  | [] => true
  | c :: cs =>
    if !isWordChar c then true
    else
      match stripCI ['k', 'g'] (c :: cs) with
      | some r => nwNext r
      | none => false

/-- The continuation `\s*([A-Z]{3})?\b` (with `i`) after the captured number
of the `Total` patterns: succeeds when the next character is absent,
non-word, or starts exactly three letters followed by a word boundary. -/
def contCur : List Char → Bool
  | [] => true
  | c :: cs =>
    if !isWordChar c then true
    else
      match cs with
      | c2 :: c3 :: rest => isAlphaC c && isAlphaC c2 && isAlphaC c3 && nwNext rest
      | _ => false

/-- `[:\s]*([0-9]+(?:[.,][0-9]+)?)` followed by the continuation `cont`.
The digit runs are forced maximal (giving a digit back puts `\b` between two
digits, which fails); if taking the optional decimal part makes `cont` fail,
the engine falls back to the integer part, whose continuation then starts at
the `.`/`,` and always succeeds. -/
def numTail (cont : List Char → Bool) (cs1 : List Char) : Option (List Char) :=
  let cs2 := cs1.dropWhile isSep
  let s := (cs2.takeWhile isDigitC, cs2.dropWhile isDigitC)
  match s.1 with
  | [] => none
  | _ :: _ =>
    match s.2 with
    | c :: r2 =>
      if c = '.' || c = ',' then
        let t := (r2.takeWhile isDigitC, r2.dropWhile isDigitC)
        match t.1 with
        | [] => if cont s.2 then some s.1 else none
        | _ :: _ => if cont t.2 then some (s.1 ++ c :: t.1) else some s.1
      else if cont s.2 then some s.1 else none
    | [] => some s.1

/-- `/\bGross\s*weight[:\s]*([0-9]+(?:[.,][0-9]+)?)\s*(kg)?\b/i` at one
position. -/
def grossATry (prev : Option Char) (cs : List Char) : Option (List Char) :=
  if atWordStart prev then
    match stripWordsCI [['g', 'r', 'o', 's', 's'], ['w', 'e', 'i', 'g', 'h', 't']] cs with
    | none => none
    | some cs1 => numTail contKg cs1
  else none

/-- `/\bBrut(?:to)?[:\s]*([0-9]+(?:[.,][0-9]+)?)\b/i` at one position.  When
`to` is present the optional group must take it (the fallback would need a
digit at `t`), so it is committed. -/
def grossBTry (prev : Option Char) (cs : List Char) : Option (List Char) :=
  if atWordStart prev then
    match stripCI ['b', 'r', 'u', 't'] cs with
    | none => none
    | some cs0 =>
      let cs1 := match stripCI ['t', 'o'] cs0 with
        | some r => r
        | none => cs0
      numTail nwNext cs1
  else none

/-- `/\bTotal(?:\s*Amount)?[:\s]*([0-9]+(?:[.,][0-9]+)?)\s*([A-Z]{3})?\b/i`
at one position.  When `Amount` follows (after `\s*`) the optional group is
committed: the fallback would need a digit at the `a` of `Amount`. -/
def totalATry (prev : Option Char) (cs : List Char) : Option (List Char) :=
  if atWordStart prev then
    match stripCI ['t', 'o', 't', 'a', 'l'] cs with
    | none => none
    | some cs0 =>
      let cs1 := match stripCI ['a', 'm', 'o', 'u', 'n', 't'] (cs0.dropWhile isJsWs) with
        | some r => r
        | none => cs0
      numTail contCur cs1
  else none

/-- `/\bGrand\s*Total[:\s]*([0-9]+(?:[.,][0-9]+)?)\s*([A-Z]{3})?\b/i` at one
position. -/
def totalBTry (prev : Option Char) (cs : List Char) : Option (List Char) :=
  if atWordStart prev then
    match stripWordsCI [['g', 'r', 'a', 'n', 'd'], ['t', 'o', 't', 'a', 'l']] cs with
    | none => none
    | some cs1 => numTail contCur cs1
  else none

/-- The trailing `\b` after the greedy `[A-Z0-9\-\/]+` run of the
invoice-number pattern: shrink the run (reversed in `gRev`) until the
boundary between its last kept character and the following character holds;
returns the kept group. -/
def invBoundary : List Char → List Char → Option (List Char)
  | [], _ => none
  | c :: gRev, rest =>
    if Bool.xor (isWordChar c) (wNext rest) then some ((c :: gRev).reverse)
    else invBoundary gRev (c :: rest)

/-- One alternation branch `(No|#|Number)[:\s]*([A-Z0-9\-\/]+)\b` (with `i`):
returns (label text as matched, value group).  `[:\s]*` cannot give back (a
value character is never in `[:\s]`). -/
def invLabelTry (lab : List Char) (cs : List Char) : Option (List Char × List Char) :=
  match stripCI lab cs with
  | none => none
  | some cs1 =>
    let cs2 := cs1.dropWhile isSep
    let s := (cs2.takeWhile isInvValChar, cs2.dropWhile isInvValChar)
    match s.1 with
    | [] => none
    | r :: rs => (invBoundary (r :: rs).reverse s.2).map fun g => (cs.take lab.length, g)

/-- `/\bInvoice\s*(No|#|Number)[:\s]*([A-Z0-9\-\/]+)\b/i` at one position,
with the alternation tried in source order (a failing branch continuation
falls through to the next branch). -/
def invoiceNoTry (prev : Option Char) (cs : List Char) :
    Option (List Char × List Char) :=
  if atWordStart prev then
    match stripCI ['i', 'n', 'v', 'o', 'i', 'c', 'e'] cs with
    | none => none
    | some cs1 =>
      let cs2 := cs1.dropWhile isJsWs
      match invLabelTry ['n', 'o'] cs2 with
      | some r => some r
      | none =>
        match invLabelTry ['#'] cs2 with
        | some r => some r
        | none => invLabelTry ['n', 'u', 'm', 'b', 'e', 'r'] cs2
  else none

/-- `[:\s]*([0-9]{1,2}[-./][0-9]{1,2}[-./][0-9]{2,4})\b` after a date label
(the separator class is written `[-./]` here only to appease the comment
parser; the source writes the same three characters).  Each digit run is
forced (`{1,2}` over a longer run leaves `\b` between two digits; shorter
choices put a digit where the separator is required), so a run
longer than the quantifier bound fails the position. -/
def isDateSep (c : Char) : Bool :=
  c = '.' || c = '/' || c = '-'

/-- See `isDateSep`; the date tail after the label. -/
def dateTail (cs1 : List Char) : Option (List Char) :=
  let cs2 := cs1.dropWhile isSep
  let s1 := (cs2.takeWhile isDigitC, cs2.dropWhile isDigitC)
  if s1.1.length = 0 || 2 < s1.1.length then none
  else
    match s1.2 with
    | p1 :: r2 =>
      if isDateSep p1 then
        let s2 := (r2.takeWhile isDigitC, r2.dropWhile isDigitC)
        if s2.1.length = 0 || 2 < s2.1.length then none
        else
          match s2.2 with
          | p2 :: r4 =>
            if isDateSep p2 then
              let s3 := (r4.takeWhile isDigitC, r4.dropWhile isDigitC)
              if 2 ≤ s3.1.length && s3.1.length ≤ 4 && nwNext s3.2 then
                some (s1.1 ++ p1 :: s2.1 ++ p2 :: s3.1)
              else none
            else none
          | [] => none
      else none
    | [] => none

/-- `/\bInvoice\s*Date[:\s]*(date)\b/i` at one position. -/
def invoiceDateTry (prev : Option Char) (cs : List Char) : Option (List Char) :=
  if atWordStart prev then
    match stripWordsCI [['i', 'n', 'v', 'o', 'i', 'c', 'e'], ['d', 'a', 't', 'e']] cs with
    | none => none
    | some cs1 => dateTail cs1
  else none

/-- `/\bDate[:\s]*(date)\b/i` at one position. -/
def dateTry (prev : Option Char) (cs : List Char) : Option (List Char) :=
  if atWordStart prev then
    match stripCI ['d', 'a', 't', 'e'] cs with
    | none => none
    | some cs1 => dateTail cs1
  else none

/-- `/\bCMR\s*Date[:\s]*(date)\b/i` at one position. -/
def cmrDateTry (prev : Option Char) (cs : List Char) : Option (List Char) :=
  if atWordStart prev then
    match stripWordsCI [['c', 'm', 'r'], ['d', 'a', 't', 'e']] cs with
    | none => none
    | some cs1 => dateTail cs1
  else none

/-- The `[:\s]*([^\n]{minL,maxL})` tail of the label-anchored free-text
patterns (`Exporter`, `Importer`, `Goods`, places).  `headAt` is the group
attempt with `k` separator characters consumed; the engine tries the greedy
count first and gives separator characters back one at a time. -/
def headAt (minL maxL : Nat) (suffix : List Char) : Option (List Char) :=
  let run := suffix.takeWhile fun c => !(c = '\n')
  if minL ≤ run.length then some (run.take maxL) else none

/-- Give-back loop over the separator count, from `k` down to `0`. -/
def headLoop (minL maxL : Nat) (cs1 : List Char) : Nat → Option (List Char)
  | 0 => headAt minL maxL cs1
  | k + 1 =>
    match headAt minL maxL (cs1.drop (k + 1)) with
    | some g => some g
    | none => headLoop minL maxL cs1 k

/-- `[:\s]*([^\n]{minL,maxL})` after a label, starting from the greedy
separator run. -/
def headTail (minL maxL : Nat) (cs1 : List Char) : Option (List Char) :=
  headLoop minL maxL cs1 (cs1.takeWhile isSep).length

/-- `/\bLabel[:\s]*([^\n]{minL,maxL})/i` at one position, for a multi-word
label. -/
def headTry (lab : List (List Char)) (minL maxL : Nat)
    (prev : Option Char) (cs : List Char) : Option (List Char) :=
  if atWordStart prev then
    match stripWordsCI lab cs with
    | none => none
    | some cs1 => headTail minL maxL cs1
  else none

/-- `/\bGoods(?:\s*description)?[:\s]*([^\n]{3,120})/i` at one position: try
with the optional `\s*description` taken (greedy), fall back to without. -/
def goodsATry (prev : Option Char) (cs : List Char) : Option (List Char) :=
  if atWordStart prev then
    match stripCI ['g', 'o', 'o', 'd', 's'] cs with
    | none => none
    | some cs0 =>
      let withDesc :=
        match stripCI ['d', 'e', 's', 'c', 'r', 'i', 'p', 't', 'i', 'o', 'n']
            (cs0.dropWhile isJsWs) with
        | some r => headTail 3 120 r
        | none => none
      match withDesc with
      | some g => some g
      | none => headTail 3 120 cs0
  else none

/-! ### String-level pattern functions (each returns regex group 1, untrimmed) -/

/-- Wrap a char-list matcher into a `String → Option String` pattern. -/
def toPat (f : Option Char → List Char → Option (List Char)) (s : String) :
    Option String :=
  (scanT f none s.data).map fun g => ⟨g⟩

def pVinLabeled : String → Option String := toPat vinLabeledTry
def pVinBare : String → Option String := toPat vinBareTry
def pGrossA : String → Option String := toPat grossATry
def pGrossB : String → Option String := toPat grossBTry
def pTotalA : String → Option String := toPat totalATry
def pTotalB : String → Option String := toPat totalBTry
def pInvoiceDate : String → Option String := toPat invoiceDateTry
def pDate : String → Option String := toPat dateTry
def pCmrDate : String → Option String := toPat cmrDateTry
def pExporter : String → Option String := toPat (headTry [['e', 'x', 'p', 'o', 'r', 't', 'e', 'r']] 3 80)
def pSender : String → Option String := toPat (headTry [['s', 'e', 'n', 'd', 'e', 'r']] 3 80)
def pConsignor : String → Option String := toPat (headTry [['c', 'o', 'n', 's', 'i', 'g', 'n', 'o', 'r']] 3 80)
def pImporter : String → Option String := toPat (headTry [['i', 'm', 'p', 'o', 'r', 't', 'e', 'r']] 3 80)
def pReceiver : String → Option String := toPat (headTry [['r', 'e', 'c', 'e', 'i', 'v', 'e', 'r']] 3 80)
def pConsignee : String → Option String := toPat (headTry [['c', 'o', 'n', 's', 'i', 'g', 'n', 'e', 'e']] 3 80)
def pGoodsA : String → Option String := toPat goodsATry
def pDescription : String → Option String := toPat (headTry [['d', 'e', 's', 'c', 'r', 'i', 'p', 't', 'i', 'o', 'n']] 3 120)
def pTakingOver : String → Option String :=
  toPat (headTry [['p', 'l', 'a', 'c', 'e'], ['o', 'f'], ['t', 'a', 'k', 'i', 'n', 'g'], ['o', 'v', 'e', 'r']] 2 80)
def pLoadingPlace : String → Option String :=
  toPat (headTry [['l', 'o', 'a', 'd', 'i', 'n', 'g'], ['p', 'l', 'a', 'c', 'e']] 2 80)
def pDeliveryDesignated : String → Option String :=
  toPat (headTry [['p', 'l', 'a', 'c', 'e'], ['d', 'e', 's', 'i', 'g', 'n', 'a', 't', 'e', 'd'], ['f', 'o', 'r'], ['d', 'e', 'l', 'i', 'v', 'e', 'r', 'y']] 2 80)
def pDeliveryPlace : String → Option String :=
  toPat (headTry [['d', 'e', 'l', 'i', 'v', 'e', 'r', 'y'], ['p', 'l', 'a', 'c', 'e']] 2 80)

/-- The shared invoice-number scan: `/\bInvoice\s*(No|#|Number)[:\s]*([A-Z0-9\-\/]+)\b/i`
and its fixed variant differ only in whether the label group captures, so one
scan yields (group for the flawed regex, group for the fixed regex). -/
def invoiceNoCore (s : String) : Option (String × String) :=
  (scanT invoiceNoTry none s.data).map fun p => (⟨p.1⟩, ⟨p.2⟩)

/-- Group 1 of the flawed invoice-number regex (the label text). -/
def pInvoiceNoFlawed (s : String) : Option String :=
  (invoiceNoCore s).map Prod.fst

/-! ## `matchOne`, `pickFirst` and the extractor record (src/server.js:52-66, 156-177) -/

/-- `matchOne` (src/server.js:59-66): try the patterns in order; on the first
one whose match has a truthy group 1 (`m && m[1]`), return that group
trimmed; otherwise fall through, ending in `null`. -/
def matchOne (pats : List (String → Option String)) (t : String) : Option String :=
  match pats with
  | [] => none
  | p :: ps =>
    match p t with
    | none => matchOne ps t
    | some g => if g = "" then matchOne ps t else some (jsTrim g)

/-- The JS coercion `x || null` for `x : string | null`: the empty string is
falsy and becomes `null`. -/
def orNull : Option String → Option String
  | none => none
  | some s => if s = "" then none else some s

/-- `pickFirst` (src/server.js:52-57): first argument that is neither
`undefined`/`null` nor blank after trimming (the value is returned
untrimmed). -/
def pickFirst : List (Option String) → Option String
  | [] => none
  | none :: rest => pickFirst rest
  | some s :: rest => if jsTrim s = "" then pickFirst rest else some s

/-- `cmr.exporter` of the extractor output: `{ name, address }`. -/
structure CmrExporter where
  name : Option String
  address : Option String
  deriving Repr, DecidableEq

/-- `cmr.importer` / `invoice.importer` of the extractor output:
`{ name, id }`. -/
structure ImporterRec where
  name : Option String
  id : Option String
  deriving Repr, DecidableEq

/-- `invoice.exporter` of the extractor output: `{ name }` only. -/
structure InvExporter where
  name : Option String
  deriving Repr, DecidableEq

/-- The `cmr` sub-record produced by `extractFromVisionText` /
`extractSimple`. -/
structure CmrRec where
  exporter : CmrExporter
  importer : ImporterRec
  goods_name : Option String
  vin : Option String
  gross_weight_kg : Option String
  loading_place : Option String
  delivery_place : Option String
  date : Option String
  deriving Repr, DecidableEq

/-- The `invoice` sub-record produced by `extractFromVisionText` /
`extractSimple`. -/
structure InvRec where
  exporter : InvExporter
  importer : ImporterRec
  goods_name : Option String
  vin : Option String
  invoice_no : Option String
  invoice_date : Option String
  total_amount : Option String
  deriving Repr, DecidableEq

/-- The candidate record returned by the extractors. -/
structure ExtractRecord where
  cmr : CmrRec
  invoice : InvRec
  deriving Repr, DecidableEq

/-- The ordered pattern lists of `extractFromVisionText`, one per field. -/
def vinPats : List (String → Option String) := [pVinLabeled, pVinBare]

def grossPats : List (String → Option String) := [pGrossA, pGrossB]

def invoiceDatePats : List (String → Option String) := [pInvoiceDate, pDate]

def totalPats : List (String → Option String) := [pTotalA, pTotalB]

def exporterPats : List (String → Option String) := [pExporter, pSender, pConsignor]

def importerPats : List (String → Option String) := [pImporter, pReceiver, pConsignee]

def goodsPats : List (String → Option String) := [pGoodsA, pDescription]

def cmrDatePats : List (String → Option String) := [pCmrDate, pDate]

def loadingPats : List (String → Option String) := [pTakingOver, pLoadingPlace]

def deliveryPats : List (String → Option String) := [pDeliveryDesignated, pDeliveryPlace]

/-- The body of `extractFromVisionText` after `normalizeText`
(src/server.js:80-176), field for field. -/
def extractFields (text : String) : ExtractRecord :=
  let vin := orNull (matchOne vinPats text)
  let gross := orNull (matchOne grossPats text)
  let invoiceNo := orNull (matchOne [pInvoiceNoFlawed] text)
  let invoiceNoFixed := orNull ((invoiceNoCore text).map fun p => jsTrim p.2)
  let invoiceDate := orNull (matchOne invoiceDatePats text)
  let total := orNull (matchOne totalPats text)
  let exporterName := orNull (matchOne exporterPats text)
  let importerName := orNull (matchOne importerPats text)
  let goodsName := orNull (matchOne goodsPats text)
  let cmrDate := orNull (matchOne cmrDatePats text)
  let loadingPlace := orNull (matchOne loadingPats text)
  let deliveryPlace := orNull (matchOne deliveryPats text)
  { cmr :=
      { exporter := { name := orNull exporterName, address := none }
        importer := { name := orNull importerName, id := none }
        goods_name := orNull goodsName
        vin := vin
        gross_weight_kg := gross
        loading_place := loadingPlace
        delivery_place := deliveryPlace
        date := cmrDate }
    invoice :=
      { exporter := { name := orNull exporterName }
        importer := { name := orNull importerName, id := none }
        goods_name := orNull goodsName
        vin := vin
        invoice_no := pickFirst [invoiceNoFixed, invoiceNo]
        invoice_date := invoiceDate
        total_amount := total } }

/-- `extractFromVisionText` (src/server.js:77-177). -/
def extractFromVisionText (rawText : String) : ExtractRecord :=
  extractFields (normalizeText rawText)

/-- The analysis value served by the `/upload/google-vision` route
(src/server.js:291-300): the extractor output is returned to the client
as-is, with no further normalization step. -/
def googleVisionAnalysis (visionText : String) : ExtractRecord :=
  extractFromVisionText visionText

/-! ## `extractSimple` (src/unnamed/part_001:492-517, second variant) -/

/-- `/\bTotal[:\s]*([0-9.,]+)/i` at one position (nothing follows the greedy
group, so no give-back can fire). -/
def totalSimpleTry (prev : Option Char) (cs : List Char) : Option (List Char) :=
  if atWordStart prev then
    match stripCI ['t', 'o', 't', 'a', 'l'] cs with
    | none => none
    | some cs1 =>
      let q := fun c => isDigitC c || c = '.' || c = ','
      let s := ((cs1.dropWhile isSep).takeWhile q, (cs1.dropWhile isSep).dropWhile q)
      match s.1 with
      | [] => none
      | run => some run
  else none

/-- Group 1 of the simple `Total` pattern. -/
def pTotalSimple : String → Option String := toPat totalSimpleTry

/-- `extractSimple` (src/unnamed/part_001:492-517): a bare 17-character VIN
run (`m[0]`) and a simple total; no `normalizeText`, no trimming. -/
def extractSimple (text : String) : ExtractRecord :=
  let vinMatch := pVinBare text
  let totalMatch := pTotalSimple text
  { cmr :=
      { exporter := { name := none, address := none }
        importer := { name := none, id := none }
        goods_name := none
        vin := orNull vinMatch
        gross_weight_kg := none
        loading_place := none
        delivery_place := none
        date := none }
    invoice :=
      { exporter := { name := none }
        importer := { name := none, id := none }
        goods_name := none
        vin := orNull vinMatch
        invoice_no := none
        invoice_date := none
        total_amount := orNull totalMatch } }

/-! ## The Normalizer, modelled from the spec

No implementation of the spec's Normalizer exists under `src/` (the variants
return provider/extractor output without a normalization pass), so the
following definitions are modelled from the spec's §3/§4.1 wording and the
claims are settled against them. -/

/-- A JSON-like candidate value (the Normalizer's loosely-typed input).
Numbers are modelled as integers to stay away from floating point; `vobj`
fields are an association list looked up by first occurrence. -/
inductive Value where
  | vnull : Value
  | vbool : Bool → Value
  | vnum : Int → Value
  | vstr : String → Value
  | varr : List Value → Value
  | vobj : List (String × Value) → Value
  deriving Repr

/-- Look up a key in an object's field list (first binding wins). -/
def lookupField : List (String × Value) → String → Option Value
  | [], _ => none
  | (k, v) :: rest, key => if k = key then some v else lookupField rest key

/-- Is the value an object? -/
def isObj : Value → Bool
  | .vobj _ => true
  | _ => false

/-- The field list of a candidate sub-object: absent or non-object values are
replaced by `{}` (spec §4.1). -/
def objFields : Option Value → List (String × Value)
  | some (.vobj fs) => fs
  | _ => []

/-- Modelled from the spec: leaf coercion of the missing Normalizer.  A
string is kept, a number becomes its decimal string, and anything missing or
of another type is coerced to the empty string (spec §3: all leaf fields are
strings, wrong types are tolerated and coerced). -/
def coerceStr : Option Value → String
  | some (.vstr s) => s
  | some (.vnum n) => toString n
  | _ => ""

/-- Modelled from the spec: a plain text field is the coerced string,
trimmed (spec §4.1: "Text fields: apply `trim`"). -/
def textField (o : Option Value) : String :=
  jsTrim (coerceStr o)

/-- "Exactly 17 characters from the alphabet A-H, J-N, P, R-Z, 0-9". -/
def isVin17 (s : String) : Bool :=
  s.data.length = 17 && s.data.all isVinChar

/-- Modelled from the spec: VIN cleaning of the missing Normalizer — convert
to uppercase, trim, validate against the 17-character VIN alphabet; on
failure the result is the empty string (spec §4.1). -/
def vinClean (s : String) : String :=
  let u := jsUpper (jsTrim s)
  if isVin17 u then u else ""

/-- See `vinClean`. -/
def normVin (o : Option Value) : String :=
  vinClean (coerceStr o)

/-- First contiguous numeric run, optionally with one decimal point
(spec §4.1's weight extraction step): scan to the first digit, take the
digit run, and extend it across a single period when more digits follow. -/
def firstNumRunL : List Char → List Char
  | [] => []
  | c :: cs =>
    if isDigitC c then
      let d1 := (c :: cs).takeWhile isDigitC
      match (c :: cs).dropWhile isDigitC with
      | p :: r2 =>
        if p = '.' then
          match r2.takeWhile isDigitC with
          | [] => d1
          | y :: ys => d1 ++ '.' :: y :: ys
        else d1
      | [] => d1
    else firstNumRunL cs

/-- Modelled from the spec: weight cleaning of the missing Normalizer —
uppercase, trim, replace comma decimal separators by periods, then extract
the first contiguous numeric run; empty string when none exists
(spec §4.1). -/
def weightClean (s : String) : String :=
  let u := jsUpper (jsTrim s)
  ⟨firstNumRunL (u.data.map fun c => if c = ',' then '.' else c)⟩

/-- See `weightClean`. -/
def normWeight (o : Option Value) : String :=
  weightClean (coerceStr o)

/-- A normalized party `{name, address}` (spec §3). -/
structure NParty where
  name : String
  address : String
  deriving Repr, DecidableEq

/-- A normalized party with identifier `{name, address, id}` (spec §3). -/
structure NPartyId where
  name : String
  address : String
  id : String
  deriving Repr, DecidableEq

/-- The normalized `cmr` sub-record (spec §3). -/
structure NCmr where
  exporter : NParty
  importer : NPartyId
  goods_name : String
  vin : String
  gross_weight_kg : String
  loading_place : String
  delivery_place : String
  date : String
  deriving Repr, DecidableEq

/-- The normalized `invoice` sub-record (spec §3). -/
structure NInvoice where
  exporter : NParty
  importer : NPartyId
  goods_name : String
  vin : String
  invoice_no : String
  invoice_date : String
  total_amount : String
  deriving Repr, DecidableEq

/-- The canonical `DocumentRecord` (spec §3): every leaf a string, nested
party objects always present. -/
structure DocumentRecord where
  cmr : NCmr
  invoice : NInvoice
  deriving Repr, DecidableEq

/-- Normalize a party sub-object's fields. -/
def normParty (fs : List (String × Value)) : NParty :=
  { name := textField (lookupField fs "name")
    address := textField (lookupField fs "address") }

/-- Normalize a party-with-id sub-object's fields. -/
def normPartyId (fs : List (String × Value)) : NPartyId :=
  { name := textField (lookupField fs "name")
    address := textField (lookupField fs "address")
    id := textField (lookupField fs "id") }

/-- Modelled from the spec: the missing Normalizer
(`normalize(candidate) -> DocumentRecord`, spec §4.1).  Non-objects are
treated as empty; `cmr`/`invoice` and their `exporter`/`importer`
sub-objects are defaulted to `{}` when absent or non-objects; leaves are
coerced/trimmed; VIN fields validated; `cmr.gross_weight_kg` numerically
extracted. -/
def normalize (v : Value) : DocumentRecord :=
  let c := objFields (if isObj v then lookupField (objFields (some v)) "cmr" else none)
  let i := objFields (if isObj v then lookupField (objFields (some v)) "invoice" else none)
  { cmr :=
      { exporter := normParty (objFields (lookupField c "exporter"))
        importer := normPartyId (objFields (lookupField c "importer"))
        goods_name := textField (lookupField c "goods_name")
        vin := normVin (lookupField c "vin")
        gross_weight_kg := normWeight (lookupField c "gross_weight_kg")
        loading_place := textField (lookupField c "loading_place")
        delivery_place := textField (lookupField c "delivery_place")
        date := textField (lookupField c "date") }
    invoice :=
      { exporter := normParty (objFields (lookupField i "exporter"))
        importer := normPartyId (objFields (lookupField i "importer"))
        goods_name := textField (lookupField i "goods_name")
        vin := normVin (lookupField i "vin")
        invoice_no := textField (lookupField i "invoice_no")
        invoice_date := textField (lookupField i "invoice_date")
        total_amount := textField (lookupField i "total_amount") } }

/-- Render a `DocumentRecord` back as a JSON-like value (all leaves are
strings). -/
def toValue (r : DocumentRecord) : Value :=
  .vobj
    [("cmr", .vobj
        [("exporter", .vobj [("name", .vstr r.cmr.exporter.name), ("address", .vstr r.cmr.exporter.address)]),
         ("importer", .vobj [("name", .vstr r.cmr.importer.name), ("address", .vstr r.cmr.importer.address), ("id", .vstr r.cmr.importer.id)]),
         ("goods_name", .vstr r.cmr.goods_name),
         ("vin", .vstr r.cmr.vin),
         ("gross_weight_kg", .vstr r.cmr.gross_weight_kg),
         ("loading_place", .vstr r.cmr.loading_place),
         ("delivery_place", .vstr r.cmr.delivery_place),
         ("date", .vstr r.cmr.date)]),
     ("invoice", .vobj
        [("exporter", .vobj [("name", .vstr r.invoice.exporter.name), ("address", .vstr r.invoice.exporter.address)]),
         ("importer", .vobj [("name", .vstr r.invoice.importer.name), ("address", .vstr r.invoice.importer.address), ("id", .vstr r.invoice.importer.id)]),
         ("goods_name", .vstr r.invoice.goods_name),
         ("vin", .vstr r.invoice.vin),
         ("invoice_no", .vstr r.invoice.invoice_no),
         ("invoice_date", .vstr r.invoice.invoice_date),
         ("total_amount", .vstr r.invoice.total_amount)])]

/-- Is this `Option Value` a string leaf? -/
def isStrLeaf : Option Value → Bool
  | some (.vstr _) => true
  | _ => false

/-- Schema check for a rendered party object. -/
def checkParty (o : Option Value) : Bool :=
  match o with
  | some (.vobj fs) => isStrLeaf (lookupField fs "name") && isStrLeaf (lookupField fs "address")
  | _ => false

/-- Schema check for a rendered party-with-id object. -/
def checkPartyId (o : Option Value) : Bool :=
  match o with
  | some (.vobj fs) =>
    isStrLeaf (lookupField fs "name") && isStrLeaf (lookupField fs "address") &&
      isStrLeaf (lookupField fs "id")
  | _ => false

/-- Schema conformance of a rendered `DocumentRecord` (spec §3): both
sub-records present as objects, nested parties present as objects, every
declared leaf present and a string. -/
def checkSchema (v : Value) : Bool :=
  match v with
  | .vobj fs =>
    (match lookupField fs "cmr" with
     | some (.vobj c) =>
       checkParty (lookupField c "exporter") && checkPartyId (lookupField c "importer") &&
         isStrLeaf (lookupField c "goods_name") && isStrLeaf (lookupField c "vin") &&
         isStrLeaf (lookupField c "gross_weight_kg") && isStrLeaf (lookupField c "loading_place") &&
         isStrLeaf (lookupField c "delivery_place") && isStrLeaf (lookupField c "date")
     | _ => false) &&
    (match lookupField fs "invoice" with
     | some (.vobj i) =>
       checkParty (lookupField i "exporter") && checkPartyId (lookupField i "importer") &&
         isStrLeaf (lookupField i "goods_name") && isStrLeaf (lookupField i "vin") &&
         isStrLeaf (lookupField i "invoice_no") && isStrLeaf (lookupField i "invoice_date") &&
         isStrLeaf (lookupField i "total_amount")
     | _ => false)
  | _ => false

/-! ## Lemmas about trimming -/

theorem dropTrail_append (p : Char → Bool) :
    ∀ l : List Char, ∃ b, l = dropTrail p l ++ b := by
  intro l
  induction l with
  | nil => exact ⟨[], rfl⟩
  | cons c cs ih =>
    obtain ⟨b, hb⟩ := ih
    cases h : dropTrail p cs with
    | nil =>
      by_cases hc : p c
      · exact ⟨c :: cs, by simp [dropTrail, h, hc]⟩
      · exact ⟨cs, by simp [dropTrail, h, hc]⟩
    | cons d ds =>
      refine ⟨b, ?_⟩
      rw [h] at hb
      have hcc : dropTrail p (c :: cs) = c :: d :: ds := by
        simp only [dropTrail]
        rw [h]
      rw [hcc]
      simpa using hb

theorem dropWhile_append (p : Char → Bool) (l : List Char) :
    ∃ a, l = a ++ l.dropWhile p :=
  ⟨l.takeWhile p, (List.takeWhile_append_dropWhile p l).symm⟩

theorem dropWhile_head_not (p : Char → Bool) :
    ∀ l : List Char, ∀ c, (l.dropWhile p).head? = some c → p c = false := by
  intro l
  induction l with
  | nil => intro c h; simp [List.dropWhile] at h
  | cons d ds ih =>
    intro c h
    by_cases hd : p d
    · exact ih c (by simpa [List.dropWhile, hd] using h)
    · simp only [List.dropWhile, hd] at h
      simp only [List.head?, Option.some.injEq] at h
      rw [← h]
      simpa using hd

theorem dropWhile_eq_self_of_head (p : Char → Bool) (l : List Char)
    (h : ∀ c, l.head? = some c → p c = false) : l.dropWhile p = l := by
  cases l with
  | nil => rfl
  | cons c cs => simp [List.dropWhile, h c rfl]

theorem dropTrail_head (p : Char → Bool) :
    ∀ l : List Char, dropTrail p l = [] ∨ (dropTrail p l).head? = l.head? := by
  intro l
  cases l with
  | nil => exact Or.inl rfl
  | cons c cs =>
    cases h : dropTrail p cs with
    | nil =>
      by_cases hc : p c
      · exact Or.inl (by simp [dropTrail, h, hc])
      · exact Or.inr (by simp [dropTrail, h, hc])
    | cons d ds => exact Or.inr (by simp [dropTrail, h])

theorem dropTrail_idem (p : Char → Bool) :
    ∀ l : List Char, dropTrail p (dropTrail p l) = dropTrail p l := by
  intro l
  induction l with
  | nil => rfl
  | cons c cs ih =>
    cases h : dropTrail p cs with
    | nil =>
      by_cases hc : p c
      · simp [dropTrail, h, hc]
      · simp [dropTrail, h, hc]
    | cons d ds =>
      rw [h] at ih
      have hcc : dropTrail p (c :: cs) = c :: d :: ds := by
        simp only [dropTrail]
        rw [h]
      rw [hcc]
      rw [dropTrail, ih]

theorem jsTrimL_idem (l : List Char) : jsTrimL (jsTrimL l) = jsTrimL l := by
  unfold jsTrimL
  have h1 : (dropTrail isJsWs (l.dropWhile isJsWs)).dropWhile isJsWs =
      dropTrail isJsWs (l.dropWhile isJsWs) := by
    apply dropWhile_eq_self_of_head
    intro c hc
    rcases dropTrail_head isJsWs (l.dropWhile isJsWs) with h | h
    · rw [h] at hc; simp at hc
    · exact dropWhile_head_not isJsWs l c (h ▸ hc)
  rw [h1, dropTrail_idem]

theorem jsTrim_jsTrim (s : String) : jsTrim (jsTrim s) = jsTrim s := by
  show (⟨jsTrimL (jsTrimL s.data)⟩ : String) = ⟨jsTrimL s.data⟩
  rw [jsTrimL_idem]

theorem dropWhile_eq_self_of_all (p : Char → Bool) (l : List Char)
    (h : ∀ c ∈ l, p c = false) : l.dropWhile p = l := by
  cases l with
  | nil => rfl
  | cons c cs => simp [List.dropWhile, h c (by simp)]

theorem dropTrail_eq_self_of_all (p : Char → Bool) :
    ∀ l : List Char, (∀ c ∈ l, p c = false) → dropTrail p l = l := by
  intro l
  induction l with
  | nil => intro _; rfl
  | cons c cs ih =>
    intro h
    have hcs := ih fun d hd => h d (by simp [hd])
    cases hc : dropTrail p cs with
    | nil =>
      have hnil : cs = [] := by rw [← hcs, hc]
      subst hnil
      simp [dropTrail, h c (by simp)]
    | cons d ds =>
      have hcc : dropTrail p (c :: cs) = c :: d :: ds := by
        simp only [dropTrail]
        rw [hc]
      rw [hcc, ← hc, hcs]

theorem jsTrimL_eq_self_of_all (l : List Char)
    (h : ∀ c ∈ l, isJsWs c = false) : jsTrimL l = l := by
  unfold jsTrimL
  rw [dropWhile_eq_self_of_all _ _ h, dropTrail_eq_self_of_all _ _ h]

theorem jsTrim_eq_self_of_all (s : String)
    (h : ∀ c ∈ s.data, isJsWs c = false) : jsTrim s = s := by
  show (⟨jsTrimL s.data⟩ : String) = s
  rw [jsTrimL_eq_self_of_all _ h]

theorem mem_jsTrimL (l : List Char) (c : Char) (h : c ∈ jsTrimL l) : c ∈ l := by
  obtain ⟨b, hb⟩ := dropTrail_append isJsWs (l.dropWhile isJsWs)
  obtain ⟨a, ha⟩ := dropWhile_append isJsWs l
  have h1 : c ∈ l.dropWhile isJsWs := by rw [hb]; exact List.mem_append_left _ h
  rw [ha]
  exact List.mem_append_right _ h1

/-! ## Adjacent-window predicates and the `normalizeText` invariants -/

/-- Does the list contain two adjacent characters satisfying `p` then `q`? -/
def hasSub2 (p q : Char → Bool) : List Char → Bool
  | a :: b :: l => (p a && q b) || hasSub2 p q (b :: l)
  | _ => false

/-- Does the list contain three adjacent characters all satisfying `p`? -/
def hasSub3 (p : Char → Bool) : List Char → Bool
  | a :: b :: c :: l => (p a && p b && p c) || hasSub3 p (b :: c :: l)
  | _ => false

theorem hasSub2_tail {p q : Char → Bool} {a : Char} {l : List Char}
    (h : hasSub2 p q (a :: l) = false) : hasSub2 p q l = false := by
  cases l with
  | nil => rfl
  | cons b bs =>
    simp only [hasSub2, Bool.or_eq_false_iff] at h
    exact h.2

theorem hasSub2_pair {p q : Char → Bool} {a b : Char} {l : List Char}
    (h : hasSub2 p q (a :: l) = false) (hb : l.head? = some b) :
    (p a && q b) = false := by
  cases l with
  | nil => simp at hb
  | cons c cs =>
    simp only [List.head?, Option.some.injEq] at hb
    subst hb
    simp only [hasSub2, Bool.or_eq_false_iff] at h
    exact h.1

theorem hasSub2_cons {p q : Char → Bool} {a : Char} {l : List Char}
    (ha : ∀ b, l.head? = some b → (p a && q b) = false)
    (h : hasSub2 p q l = false) : hasSub2 p q (a :: l) = false := by
  cases l with
  | nil => rfl
  | cons c cs =>
    simp only [hasSub2, Bool.or_eq_false_iff]
    exact ⟨ha c rfl, h⟩

theorem hasSub2_append_left {p q : Char → Bool} :
    ∀ {l r : List Char}, hasSub2 p q (l ++ r) = false → hasSub2 p q l = false := by
  intro l
  induction l with
  | nil => intro r _; rfl
  | cons a as ih =>
    intro r h
    have h1 : hasSub2 p q (as ++ r) = false := hasSub2_tail h
    refine hasSub2_cons ?_ (ih h1)
    intro b hb
    refine hasSub2_pair h ?_
    cases as with
    | nil => simp at hb
    | cons c cs => simpa using hb

theorem hasSub2_append_right {p q : Char → Bool} :
    ∀ {l r : List Char}, hasSub2 p q (l ++ r) = false → hasSub2 p q r = false := by
  intro l
  induction l with
  | nil => intro r h; exact h
  | cons a as ih => intro r h; exact ih (hasSub2_tail h)

theorem hasSub3_tail {p : Char → Bool} {a : Char} {l : List Char}
    (h : hasSub3 p (a :: l) = false) : hasSub3 p l = false := by
  cases l with
  | nil => rfl
  | cons b bs =>
    cases bs with
    | nil => rfl
    | cons c cs =>
      simp only [hasSub3, Bool.or_eq_false_iff] at h
      exact h.2

theorem hasSub3_triple {p : Char → Bool} {a b c : Char} {l : List Char}
    (h : hasSub3 p (a :: b :: c :: l) = false) : (p a && p b && p c) = false := by
  simp only [hasSub3, Bool.or_eq_false_iff] at h
  exact h.1

theorem hasSub3_cons {p : Char → Bool} {a : Char} {l : List Char}
    (ha : ∀ b c l', l = b :: c :: l' → (p a && p b && p c) = false)
    (h : hasSub3 p l = false) : hasSub3 p (a :: l) = false := by
  cases l with
  | nil => rfl
  | cons b bs =>
    cases bs with
    | nil => rfl
    | cons c cs =>
      simp only [hasSub3, Bool.or_eq_false_iff]
      exact ⟨ha b c cs rfl, h⟩

theorem hasSub3_append_left {p : Char → Bool} :
    ∀ {l r : List Char}, hasSub3 p (l ++ r) = false → hasSub3 p l = false := by
  intro l
  induction l with
  | nil => intro r _; rfl
  | cons a as ih =>
    intro r h
    have h1 : hasSub3 p (as ++ r) = false := hasSub3_tail h
    refine hasSub3_cons ?_ (ih h1)
    intro b c l' hl
    subst hl
    exact hasSub3_triple (by simpa using h)

theorem hasSub3_append_right {p : Char → Bool} :
    ∀ {l r : List Char}, hasSub3 p (l ++ r) = false → hasSub3 p r = false := by
  intro l
  induction l with
  | nil => intro r h; exact h
  | cons a as ih => intro r h; exact ih (hasSub3_tail h)

/-- Every character emitted by the horizontal-whitespace collapse is either
the replacement space or a non-`[ \t]` character of the input. -/
theorem collapseHS_mem :
    ∀ (cs : List Char) (b : Bool) (c : Char), c ∈ collapseHSAux b cs →
      c = ' ' ∨ (isHT c = false ∧ c ∈ cs) := by
  intro cs
  induction cs with
  | nil => intro b c h; simp [collapseHSAux] at h
  | cons d ds ih =>
    intro b c h
    by_cases hd : isHT d
    · simp only [collapseHSAux, hd, if_true] at h
      cases b with
      | true =>
        rcases ih true c h with h1 | h1
        · exact Or.inl h1
        · exact Or.inr ⟨h1.1, by simp [h1.2]⟩
      | false =>
        rcases List.mem_cons.mp h with h1 | h1
        · exact Or.inl h1
        · rcases ih true c h1 with h2 | h2
          · exact Or.inl h2
          · exact Or.inr ⟨h2.1, by simp [h2.2]⟩
    · simp only [collapseHSAux, hd, if_false] at h
      rcases List.mem_cons.mp h with h1 | h1
      · subst h1
        exact Or.inr ⟨by simpa using hd, by simp⟩
      · rcases ih false c h1 with h2 | h2
        · exact Or.inl h2
        · exact Or.inr ⟨h2.1, by simp [h2.2]⟩

/-- Every character emitted by the newline collapse comes from the input. -/
theorem collapseNL_mem :
    ∀ (cs : List Char) (k : Nat) (c : Char), c ∈ collapseNLAux k cs → c ∈ cs := by
  intro cs
  induction cs with
  | nil => intro k c h; simp [collapseNLAux] at h
  | cons d ds ih =>
    intro k c h
    by_cases hd : d = '\n'
    · simp only [collapseNLAux, hd, if_true] at h
      by_cases hk : 2 ≤ k
      · simp only [hk, if_true] at h
        exact List.mem_cons.mpr (Or.inr (ih _ c h))
      · simp only [hk, if_false] at h
        rcases List.mem_cons.mp h with h1 | h1
        · simp [hd, h1]
        · exact List.mem_cons.mpr (Or.inr (ih _ c h1))
    · simp only [collapseNLAux, if_neg hd] at h
      rcases List.mem_cons.mp h with h1 | h1
      · simp [h1]
      · exact List.mem_cons.mpr (Or.inr (ih _ c h1))

/-- In run-collapsing mode the next emitted character is not `[ \t]`. -/
theorem collapseHS_true_head :
    ∀ (cs : List Char) (c : Char), (collapseHSAux true cs).head? = some c →
      isHT c = false := by
  intro cs
  induction cs with
  | nil => intro c h; simp [collapseHSAux] at h
  | cons d ds ih =>
    intro c h
    by_cases hd : isHT d
    · have e : collapseHSAux true (d :: ds) = collapseHSAux true ds := by
        simp [collapseHSAux, hd]
      rw [e] at h
      exact ih c h
    · have e : collapseHSAux true (d :: ds) = d :: collapseHSAux false ds := by
        simp [collapseHSAux, hd]
      rw [e] at h
      simp only [List.head?, Option.some.injEq] at h
      subst h
      simpa using hd

/-- The horizontal-whitespace collapse leaves no two adjacent `[ \t]`
characters. -/
theorem collapseHS_noHH :
    ∀ (cs : List Char) (b : Bool), hasSub2 isHT isHT (collapseHSAux b cs) = false := by
  intro cs
  induction cs with
  | nil => intro b; rfl
  | cons d ds ih =>
    intro b
    by_cases hd : isHT d
    · cases b with
      | true =>
        have e : collapseHSAux true (d :: ds) = collapseHSAux true ds := by
          simp [collapseHSAux, hd]
        rw [e]
        exact ih true
      | false =>
        have e : collapseHSAux false (d :: ds) = ' ' :: collapseHSAux true ds := by
          simp [collapseHSAux, hd]
        rw [e]
        refine hasSub2_cons ?_ (ih true)
        intro e' he
        have := collapseHS_true_head ds e' he
        simp [this]
    · have e : collapseHSAux b (d :: ds) = d :: collapseHSAux false ds := by
        simp [collapseHSAux, hd]
      rw [e]
      refine hasSub2_cons ?_ (ih false)
      intro e' _
      simp [show isHT d = false from by simpa using hd]

/-- Head characterization of the newline collapse in reset mode. -/
theorem collapseNL_zero_head :
    ∀ (cs : List Char) (c : Char), (collapseNLAux 0 cs).head? = some c →
      c = '\n' ∨ cs.head? = some c := by
  intro cs c h
  cases cs with
  | nil => simp [collapseNLAux] at h
  | cons d ds =>
    by_cases hd : d = '\n'
    · have e : collapseNLAux 0 (d :: ds) = '\n' :: collapseNLAux 1 ds := by
        simp [collapseNLAux, hd]
      rw [e] at h
      simp only [List.head?, Option.some.injEq] at h
      exact Or.inl h.symm
    · have e : collapseNLAux 0 (d :: ds) = d :: collapseNLAux 0 ds := by
        simp [collapseNLAux, hd]
      rw [e] at h
      simp only [List.head?, Option.some.injEq] at h
      exact Or.inr (by simp [h])

/-- The newline collapse preserves the absence of adjacent `[ \t]` pairs
(it only deletes newlines inside newline runs, always keeping at least
one). -/
theorem collapseNL_noHH :
    ∀ (cs : List Char) (k : Nat), hasSub2 isHT isHT cs = false →
      hasSub2 isHT isHT (collapseNLAux k cs) = false := by
  intro cs
  induction cs with
  | nil => intro k _; rfl
  | cons d ds ih =>
    intro k h
    have hds : hasSub2 isHT isHT ds = false := hasSub2_tail h
    by_cases hd : d = '\n'
    · by_cases hk : 2 ≤ k
      · have e : collapseNLAux k (d :: ds) = collapseNLAux (k + 1) ds := by
          simp [collapseNLAux, hd, hk]
        rw [e]
        exact ih (k + 1) hds
      · have e : collapseNLAux k (d :: ds) = '\n' :: collapseNLAux (k + 1) ds := by
          simp [collapseNLAux, hd, hk]
        rw [e]
        refine hasSub2_cons ?_ (ih (k + 1) hds)
        intro e' _
        simp [isHT]
    · have e : collapseNLAux k (d :: ds) = d :: collapseNLAux 0 ds := by
        simp [collapseNLAux, hd]
      rw [e]
      refine hasSub2_cons ?_ (ih 0 hds)
      intro e' he
      rcases collapseNL_zero_head ds e' he with h1 | h1
      · subst h1
        simp [isHT]
      · exact hasSub2_pair h h1

/-- Does the list start with a newline? -/
def nlLead1 : List Char → Bool
  | c :: _ => decide (c = '\n')
  | [] => false

/-- Does the list start with two newlines? -/
def nlLead2 : List Char → Bool
  | c :: l => decide (c = '\n') && nlLead1 l
  | [] => false

theorem nlLead2_of_lead1 {l : List Char} (h : nlLead1 l = false) :
    nlLead2 l = false := by
  cases l with
  | nil => rfl
  | cons a l' =>
    simp only [nlLead1, decide_eq_false_iff_not] at h
    simp [nlLead2, h]

/-- The newline collapse leaves no three adjacent newlines; in addition the
output starts with at most one newline when one has already been emitted for
the current run, and with none once two have. -/
theorem collapseNL_noNNN :
    ∀ (cs : List Char) (k : Nat),
      hasSub3 (fun c => decide (c = '\n')) (collapseNLAux k cs) = false ∧
      (k = 1 → nlLead2 (collapseNLAux k cs) = false) ∧
      (2 ≤ k → nlLead1 (collapseNLAux k cs) = false) := by
  intro cs
  induction cs with
  | nil =>
    intro k
    exact ⟨rfl, fun _ => rfl, fun _ => rfl⟩
  | cons d ds ih =>
    intro k
    by_cases hd : d = '\n'
    · by_cases hk : 2 ≤ k
      · have e : collapseNLAux k (d :: ds) = collapseNLAux (k + 1) ds := by
          simp [collapseNLAux, hd, hk]
        rw [e]
        refine ⟨(ih (k + 1)).1, fun h1 => absurd h1 (by omega), fun _ => ?_⟩
        exact (ih (k + 1)).2.2 (by omega)
      · have e : collapseNLAux k (d :: ds) = '\n' :: collapseNLAux (k + 1) ds := by
          simp [collapseNLAux, hd, hk]
        rw [e]
        have hrec := ih (k + 1)
        have hlead : nlLead2 (collapseNLAux (k + 1) ds) = false := by
          by_cases hk1 : k = 0
          · subst hk1; exact hrec.2.1 rfl
          · exact nlLead2_of_lead1 (hrec.2.2 (by omega))
        refine ⟨?_, fun hk1 => ?_, fun hk2 => absurd hk2 hk⟩
        · refine hasSub3_cons ?_ hrec.1
          intro b c l' hl
          rw [hl] at hlead
          simp only [nlLead2, nlLead1] at hlead
          simpa using hlead
        · have h2 : nlLead1 (collapseNLAux (k + 1) ds) = false := hrec.2.2 (by omega)
          simp [nlLead2, h2]
    · have e : collapseNLAux k (d :: ds) = d :: collapseNLAux 0 ds := by
        simp [collapseNLAux, hd]
      rw [e]
      have hrec := ih 0
      refine ⟨?_, fun _ => ?_, fun _ => ?_⟩
      · refine hasSub3_cons ?_ hrec.1
        intro b c l' _
        simp [decide_eq_false hd]
      · simp [nlLead2, decide_eq_false hd]
      · simp [nlLead1, decide_eq_false hd]

/-- Assembled invariants of the preprocessed text. -/
theorem normalizeTextL_props (l : List Char) :
    (∀ c ∈ normalizeTextL l, ¬c = '\r') ∧
    (∀ c ∈ normalizeTextL l, ¬c = '\t') ∧
    hasSub2 isHT isHT (normalizeTextL l) = false ∧
    hasSub3 (fun c => decide (c = '\n')) (normalizeTextL l) = false ∧
    jsTrimL (normalizeTextL l) = normalizeTextL l := by
  set l0 := l.map fun c => if c = '\r' then '\n' else c with hl0
  set l1 := collapseHSAux false l0 with hl1
  set l2 := collapseNLAux 0 l1 with hl2
  have hmem2 : ∀ c ∈ normalizeTextL l, c ∈ l2 := by
    intro c hc
    exact mem_jsTrimL l2 c hc
  have hmem1 : ∀ c ∈ l2, c ∈ l1 := fun c hc => collapseNL_mem l1 0 c hc
  have h0r : ∀ c ∈ l0, ¬c = '\r' := by
    intro c hc
    rw [hl0] at hc
    obtain ⟨a, _, ha⟩ := List.mem_map.mp hc
    intro hcr
    subst hcr
    by_cases h : a = '\r'
    · rw [if_pos h] at ha; exact absurd ha.symm (by decide)
    · rw [if_neg h] at ha; exact h (by rw [ha])
  have h1r : ∀ c ∈ l1, ¬c = '\r' := by
    intro c hc
    rcases collapseHS_mem l0 false c hc with h | h
    · subst h; decide
    · exact h0r c h.2
  have h1t : ∀ c ∈ l1, ¬c = '\t' := by
    intro c hc
    rcases collapseHS_mem l0 false c hc with h | h
    · subst h; decide
    · intro hct
      subst hct
      have : isHT '\t' = true := by decide
      rw [h.1] at this
      exact absurd this (by decide)
  refine ⟨?_, ?_, ?_, ?_, jsTrimL_idem l2⟩
  · exact fun c hc => h1r c (hmem1 c (hmem2 c hc))
  · exact fun c hc => h1t c (hmem1 c (hmem2 c hc))
  · have h2 : hasSub2 isHT isHT l2 = false :=
      collapseNL_noHH l1 0 (collapseHS_noHH l0 false)
    obtain ⟨b, hb⟩ := dropTrail_append isJsWs (l2.dropWhile isJsWs)
    obtain ⟨a, ha⟩ := dropWhile_append isJsWs l2
    have h3 : hasSub2 isHT isHT (l2.dropWhile isJsWs) = false :=
      hasSub2_append_right (ha ▸ h2)
    exact hasSub2_append_left (hb ▸ h3)
  · have h2 : hasSub3 (fun c => decide (c = '\n')) l2 = false := (collapseNL_noNNN l1 0).1
    obtain ⟨b, hb⟩ := dropTrail_append isJsWs (l2.dropWhile isJsWs)
    obtain ⟨a, ha⟩ := dropWhile_append isJsWs l2
    have h3 : hasSub3 (fun c => decide (c = '\n')) (l2.dropWhile isJsWs) = false :=
      hasSub3_append_right (ha ▸ h2)
    exact hasSub3_append_left (hb ▸ h3)

/-! ## Lemmas about `matchOne`, the scan driver and the patterns -/

theorem matchOne_nil (t : String) : matchOne [] t = none := rfl

theorem matchOne_cons_none {p : String → Option String} {ps : List (String → Option String)}
    {t : String} (h : p t = none) : matchOne (p :: ps) t = matchOne ps t := by
  simp [matchOne, h]

theorem matchOne_cons_blank {p : String → Option String} {ps : List (String → Option String)}
    {t : String} (h : p t = some "") : matchOne (p :: ps) t = matchOne ps t := by
  simp [matchOne, h]

theorem matchOne_cons_some {p : String → Option String} {ps : List (String → Option String)}
    {t : String} {g : String} (h : p t = some g) (hg : g ≠ "") :
    matchOne (p :: ps) t = some (jsTrim g) := by
  simp [matchOne, h, hg]

theorem orNull_none : orNull none = none := rfl

theorem orNull_eq_none_iff (o : Option String) :
    orNull o = none ↔ o = none ∨ o = some "" := by
  cases o with
  | none => simp [orNull]
  | some s =>
    by_cases h : s = ""
    · subst h; simp [orNull]
    · simp [orNull, h]

theorem orNull_some_of_ne {s : String} (h : s ≠ "") : orNull (some s) = some s := by
  simp [orNull, h]

/-- A successful scan comes from a successful position match. -/
theorem scanT_some {α : Type} (f : Option Char → List Char → Option α) :
    ∀ (prev : Option Char) (cs : List Char) (r : α), scanT f prev cs = some r →
      ∃ prev' cs', f prev' cs' = some r := by
  intro prev cs
  induction cs generalizing prev with
  | nil =>
    intro r h
    exact ⟨prev, [], by simpa [scanT] using h⟩
  | cons c cs ih =>
    intro r h
    rw [scanT] at h
    split at h
    · rename_i r' hf
      exact ⟨prev, c :: cs, by rw [hf, h]⟩
    · exact ih (some c) r h

/-- `takeClass` returns exactly `n` characters of the class. -/
theorem takeClass_spec (p : Char → Bool) :
    ∀ (n : Nat) (cs g r : List Char), takeClass p n cs = some (g, r) →
      g.length = n ∧ ∀ c ∈ g, p c = true := by
  intro n
  induction n with
  | zero =>
    intro cs g r h
    simp only [takeClass, Option.some.injEq, Prod.mk.injEq] at h
    rw [← h.1]
    exact ⟨rfl, by simp⟩
  | succ n ih =>
    intro cs g r h
    cases cs with
    | nil => simp [takeClass] at h
    | cons c cs' =>
      simp only [takeClass] at h
      by_cases hc : p c
      · rw [if_pos hc] at h
        cases hrec : takeClass p n cs' with
        | none => rw [hrec] at h; simp at h
        | some gr =>
          rw [hrec] at h
          simp only [Option.map_some', Option.some.injEq, Prod.mk.injEq] at h
          obtain ⟨hg, _⟩ := h
          obtain ⟨hlen, hall⟩ := ih cs' gr.1 gr.2 (by rw [hrec])
          rw [← hg]
          refine ⟨by simp [hlen], ?_⟩
          intro d hd
          rcases List.mem_cons.mp hd with h1 | h1
          · subst h1; exact hc
          · exact hall d h1
      · rw [if_neg hc] at h
        simp at h

/-- The labelled VIN pattern's capture is 17 VIN-alphabet characters. -/
theorem vinLabeledTry_inv {prev : Option Char} {cs g : List Char}
    (h : vinLabeledTry prev cs = some g) :
    g.length = 17 ∧ ∀ c ∈ g, isVinCharCI c = true := by
  unfold vinLabeledTry at h
  split at h
  · split at h
    · simp at h
    · split at h
      · simp at h
      · rename_i gr rest heq2
        split at h
        · simp only [Option.some.injEq] at h
          subst h
          exact takeClass_spec isVinCharCI 17 _ _ _ heq2
        · simp at h
  · simp at h

/-- The bare VIN pattern's capture is 17 VIN-alphabet characters. -/
theorem vinBareTry_inv {prev : Option Char} {cs g : List Char}
    (h : vinBareTry prev cs = some g) :
    g.length = 17 ∧ ∀ c ∈ g, isVinChar c = true := by
  unfold vinBareTry at h
  split at h
  · split at h
    · simp at h
    · rename_i gr rest heq2
      split at h
      · simp only [Option.some.injEq] at h
        subst h
        exact takeClass_spec isVinChar 17 _ _ _ heq2
      · simp at h
  · simp at h

theorem isVinCharCI_not_ws {c : Char} (h : isVinCharCI c = true) : isJsWs c = false := by
  simp only [isVinCharCI, isVinChar, Bool.or_eq_true, Bool.and_eq_true,
    decide_eq_true_eq] at h
  simp only [isJsWs, Bool.or_eq_false_iff, decide_eq_false_iff_not]
  omega

theorem isInvValChar_not_ws {c : Char} (h : isInvValChar c = true) : isJsWs c = false := by
  simp only [isInvValChar, isAlphaC, isDigitC, Bool.or_eq_true, Bool.and_eq_true,
    decide_eq_true_eq] at h
  simp only [isJsWs, Bool.or_eq_false_iff, decide_eq_false_iff_not]
  omega

/-- A labelled-VIN match yields a nonempty capture fixed by trimming. -/
theorem pVinLabeled_inv {t : String} {g : String} (h : pVinLabeled t = some g) :
    g ≠ "" ∧ jsTrim g = g := by
  unfold pVinLabeled toPat at h
  cases hscan : scanT vinLabeledTry none t.data with
  | none => rw [hscan] at h; simp at h
  | some g' =>
    rw [hscan] at h
    simp only [Option.map_some', Option.some.injEq] at h
    obtain ⟨prev', cs', hf⟩ := scanT_some vinLabeledTry none t.data g' hscan
    obtain ⟨hlen, hall⟩ := vinLabeledTry_inv hf
    subst h
    constructor
    · intro hgz
      have : g' = [] := by
        have := congrArg String.data hgz
        simpa using this
      rw [this] at hlen
      simp at hlen
    · apply jsTrim_eq_self_of_all
      intro c hc
      exact isVinCharCI_not_ws (hall c hc)

/-- `invBoundary` keeps a nonempty part of the scanned run. -/
theorem invBoundary_inv :
    ∀ (gRev rest g : List Char), invBoundary gRev rest = some g →
      g ≠ [] ∧ ∀ c ∈ g, c ∈ gRev := by
  intro gRev
  induction gRev with
  | nil => intro rest g h; simp [invBoundary] at h
  | cons c gr ih =>
    intro rest g h
    simp only [invBoundary] at h
    by_cases hx : Bool.xor (isWordChar c) (wNext rest)
    · rw [if_pos hx] at h
      simp only [Option.some.injEq] at h
      subst h
      refine ⟨by simp, ?_⟩
      intro d hd
      simpa using List.mem_reverse.mp hd
    · rw [if_neg hx] at h
      obtain ⟨hne, hmem⟩ := ih (c :: rest) g h
      exact ⟨hne, fun d hd => List.mem_cons.mpr (Or.inr (hmem d hd))⟩

/-- The invoice-number value group is a nonempty run of value-class
characters. -/
theorem invLabelTry_inv {lab cs : List Char} {out : List Char × List Char}
    (h : invLabelTry lab cs = some out) :
    out.2 ≠ [] ∧ ∀ c ∈ out.2, isInvValChar c = true := by
  unfold invLabelTry at h
  dsimp only at h
  split at h
  · simp at h
  · rename_i cs1 heq1
    split at h
    · simp at h
    · rename_i r rs heq2
      cases h3 : invBoundary (r :: rs).reverse ((cs1.dropWhile isSep).dropWhile isInvValChar) with
      | none => rw [h3] at h; simp at h
      | some g =>
        rw [h3] at h
        simp only [Option.map_some', Option.some.injEq] at h
        obtain ⟨hne, hmem⟩ := invBoundary_inv _ _ _ h3
        have hval : ∀ c ∈ g, isInvValChar c = true := by
          intro c hc
          have hmem2 : c ∈ (r :: rs) := List.mem_reverse.mp (hmem c hc)
          exact List.mem_takeWhile_imp (heq2 ▸ hmem2)
        rw [← h]
        exact ⟨hne, hval⟩

/-- The full invoice-number scan yields a nonempty value of value-class
characters. -/
theorem invoiceNoTry_inv {prev : Option Char} {cs : List Char}
    {out : List Char × List Char} (h : invoiceNoTry prev cs = some out) :
    out.2 ≠ [] ∧ ∀ c ∈ out.2, isInvValChar c = true := by
  unfold invoiceNoTry at h
  dsimp only at h
  split at h
  · split at h
    · simp at h
    · rename_i cs1 heq1
      split at h
      · rename_i r heq2
        simp only [Option.some.injEq] at h
        exact h ▸ invLabelTry_inv heq2
      · split at h
        · rename_i r heq3
          simp only [Option.some.injEq] at h
          exact h ▸ invLabelTry_inv heq3
        · exact invLabelTry_inv h
  · simp at h

/-- The invoice-number value reaches the record nonempty and trim-fixed. -/
theorem invoiceNoCore_inv {t : String} {lab val : String}
    (h : invoiceNoCore t = some (lab, val)) : val ≠ "" ∧ jsTrim val = val := by
  unfold invoiceNoCore at h
  cases hscan : scanT invoiceNoTry none t.data with
  | none => rw [hscan] at h; simp at h
  | some p =>
    rw [hscan] at h
    simp only [Option.map_some', Option.some.injEq, Prod.mk.injEq] at h
    obtain ⟨prev', cs', hf⟩ := scanT_some invoiceNoTry none t.data p hscan
    obtain ⟨hne, hall⟩ := invoiceNoTry_inv hf
    obtain ⟨hlab, hval⟩ := h
    constructor
    · intro hvz
      apply hne
      have := congrArg String.data (hval.trans hvz)
      simpa using this
    · rw [← hval]
      apply jsTrim_eq_self_of_all
      intro c hc
      exact isInvValChar_not_ws (hall c hc)

/-! ## Lemmas about the Normalizer's field cleaners -/

/-- Pointwise-identity maps are the identity. -/
theorem map_eq_self_of {f : Char → Char} :
    ∀ l : List Char, (∀ c ∈ l, f c = c) → l.map f = l := by
  intro l
  induction l with
  | nil => intro _; rfl
  | cons c cs ih =>
    intro h
    simp only [List.map_cons, h c (by simp), List.cons.injEq, true_and]
    exact ih fun d hd => h d (by simp [hd])

theorem toNat_ofNat_of_lt {m : Nat} (h : m < 55296) : (Char.ofNat m).toNat = m := by
  have hv : m.isValidChar := Or.inl h
  rw [Char.ofNat, dif_pos hv]
  rfl

/-- `upChar` leaves the VIN alphabet fixed (it is upper-case and digits). -/
theorem upChar_of_vin {c : Char} (h : isVinChar c = true) : upChar c = c := by
  simp only [isVinChar, Bool.or_eq_true, Bool.and_eq_true, decide_eq_true_eq] at h
  unfold upChar
  rw [if_neg]
  simp only [Bool.and_eq_true, decide_eq_true_eq, not_and]
  omega

theorem isVinChar_not_ws {c : Char} (h : isVinChar c = true) : isJsWs c = false := by
  simp only [isVinChar, Bool.or_eq_true, Bool.and_eq_true, decide_eq_true_eq] at h
  simp only [isJsWs, Bool.or_eq_false_iff, decide_eq_false_iff_not]
  omega

/-- `upChar` never produces a digit from a non-digit. -/
theorem isDigitC_upChar {c : Char} (h : isDigitC c = false) :
    isDigitC (upChar c) = false := by
  unfold upChar
  by_cases hc : (97 ≤ c.toNat && c.toNat ≤ 122) = true
  · rw [if_pos hc]
    simp only [Bool.and_eq_true, decide_eq_true_eq] at hc
    have ht : (Char.ofNat (c.toNat - 32)).toNat = c.toNat - 32 :=
      toNat_ofNat_of_lt (by omega)
    simp only [isDigitC, ht, Bool.and_eq_false_iff, decide_eq_false_iff_not]
    omega
  · rw [if_neg hc]
    exact h

/-- `upChar` fixes digits and the period. -/
theorem upChar_of_digit {c : Char} (h : isDigitC c = true) : upChar c = c := by
  simp only [isDigitC, Bool.and_eq_true, decide_eq_true_eq] at h
  unfold upChar
  rw [if_neg]
  simp only [Bool.and_eq_true, decide_eq_true_eq, not_and]
  omega

theorem upChar_dot : upChar '.' = '.' := by decide

theorem isDigitC_not_ws {c : Char} (h : isDigitC c = true) : isJsWs c = false := by
  simp only [isDigitC, Bool.and_eq_true, decide_eq_true_eq] at h
  simp only [isJsWs, Bool.or_eq_false_iff, decide_eq_false_iff_not]
  omega

/-- Valid VINs are fixed points of `vinClean`. -/
theorem vinClean_of_valid {s : String} (h : isVin17 s = true) : vinClean s = s := by
  have hall : ∀ c ∈ s.data, isVinChar c = true := by
    simp only [isVin17, Bool.and_eq_true, List.all_eq_true, decide_eq_true_eq] at h
    exact fun c hc => h.2 c hc
  have htrim : jsTrim s = s :=
    jsTrim_eq_self_of_all s fun c hc => isVinChar_not_ws (hall c hc)
  have hupper : jsUpper s = s := by
    show (⟨s.data.map upChar⟩ : String) = s
    have : s.data.map upChar = s.data :=
      map_eq_self_of _ fun c hc => upChar_of_vin (hall c hc)
    rw [this]
  unfold vinClean
  rw [htrim, hupper, if_pos h]

/-- `vinClean` output is always `""` or a valid VIN, so it is idempotent. -/
theorem vinClean_vinClean (s : String) : vinClean (vinClean s) = vinClean s := by
  by_cases h : isVin17 (jsUpper (jsTrim s)) = true
  · have e : vinClean s = jsUpper (jsTrim s) := by
      unfold vinClean
      rw [if_pos h]
    rw [e]
    exact vinClean_of_valid h
  · have e : vinClean s = "" := by
      unfold vinClean
      rw [if_neg h]
    rw [e]
    decide

/-- `takeWhile` over a concatenation whose first block satisfies `p`. -/
theorem takeWhile_all_append (p : Char → Bool) :
    ∀ (a b : List Char), (∀ c ∈ a, p c = true) →
      (a ++ b).takeWhile p = a ++ b.takeWhile p := by
  intro a
  induction a with
  | nil => intro b _; rfl
  | cons c cs ih =>
    intro b h
    simp only [List.cons_append, List.takeWhile_cons, h c (by simp), if_true]
    rw [ih b fun d hd => h d (by simp [hd])]

/-- `dropWhile` over a concatenation whose first block satisfies `p`. -/
theorem dropWhile_all_append (p : Char → Bool) :
    ∀ (a b : List Char), (∀ c ∈ a, p c = true) →
      (a ++ b).dropWhile p = b.dropWhile p := by
  intro a
  induction a with
  | nil => intro b _; rfl
  | cons c cs ih =>
    intro b h
    simp only [List.cons_append, List.dropWhile_cons, h c (by simp), if_true]
    exact ih b fun d hd => h d (by simp [hd])

/-- Characters of the first numeric run: digits and at most one period. -/
theorem firstNumRunL_chars :
    ∀ l : List Char, ∀ c ∈ firstNumRunL l, isDigitC c = true ∨ c = '.' := by
  intro l
  induction l with
  | nil => intro c hc; simp [firstNumRunL] at hc
  | cons d ds ih =>
    intro c hc
    by_cases hd : isDigitC d
    · rw [firstNumRunL, if_pos hd] at hc
      have htw : ∀ x ∈ (d :: ds).takeWhile isDigitC, isDigitC x = true :=
        fun x hx => List.mem_takeWhile_imp hx
      split at hc
      · rename_i p r2 heq
        split at hc
        · rename_i hp
          split at hc
          · exact Or.inl (htw c hc)
          · rename_i y ys heq2
            rcases List.mem_append.mp hc with h1 | h1
            · exact Or.inl (htw c h1)
            · rcases List.mem_cons.mp h1 with h2 | h2
              · exact Or.inr h2
              · exact Or.inl (List.mem_takeWhile_imp (heq2 ▸ h2))
        · exact Or.inl (htw c hc)
      · exact Or.inl (htw c hc)
    · rw [firstNumRunL, if_neg hd] at hc
      exact ih c hc

/-- A list with no digits has no numeric run. -/
theorem firstNumRunL_of_no_digit :
    ∀ l : List Char, (∀ c ∈ l, isDigitC c = false) → firstNumRunL l = [] := by
  intro l
  induction l with
  | nil => intro _; rfl
  | cons d ds ih =>
    intro h
    rw [firstNumRunL, if_neg (by simp [h d (by simp)])]
    exact ih fun c hc => h c (by simp [hc])

/-- A nonempty all-digit list is its own numeric run. -/
theorem firstNumRunL_digits {z : Char} {zs : List Char}
    (hall : ∀ x ∈ z :: zs, isDigitC x = true) :
    firstNumRunL (z :: zs) = z :: zs := by
  rw [firstNumRunL, if_pos (hall z (by simp))]
  have e1 : (z :: zs).takeWhile isDigitC = z :: zs := by
    rw [show z :: zs = (z :: zs) ++ ([] : List Char) from by simp,
      takeWhile_all_append _ _ _ (by simpa using hall)]
    simp [List.takeWhile]
  have e2 : (z :: zs).dropWhile isDigitC = [] := by
    rw [show z :: zs = (z :: zs) ++ ([] : List Char) from by simp,
      dropWhile_all_append _ _ _ (by simpa using hall)]
    rfl
  rw [e2]
  simpa using e1

/-- A digit run, a period and a further digit run form their own numeric
run. -/
theorem firstNumRunL_digits_dot {z y : Char} {zs ys : List Char}
    (hz : ∀ x ∈ z :: zs, isDigitC x = true)
    (hy : ∀ x ∈ y :: ys, isDigitC x = true) :
    firstNumRunL ((z :: zs) ++ '.' :: y :: ys) = (z :: zs) ++ '.' :: y :: ys := by
  have edot : isDigitC '.' = false := by decide
  have e1 : List.takeWhile isDigitC (z :: (zs ++ '.' :: y :: ys)) = z :: zs := by
    have h := takeWhile_all_append isDigitC (z :: zs) ('.' :: y :: ys) hz
    simpa [List.takeWhile, edot] using h
  have e2 : List.dropWhile isDigitC (z :: (zs ++ '.' :: y :: ys)) = '.' :: y :: ys := by
    have h := dropWhile_all_append isDigitC (z :: zs) ('.' :: y :: ys) hz
    simpa [List.dropWhile, edot] using h
  have e5 : List.takeWhile isDigitC (y :: ys) = y :: ys := by
    rw [show y :: ys = (y :: ys) ++ ([] : List Char) from by simp,
      takeWhile_all_append _ _ _ (by simpa using hy)]
    simp [List.takeWhile]
  show firstNumRunL (z :: (zs ++ '.' :: y :: ys)) = (z :: zs) ++ '.' :: y :: ys
  rw [firstNumRunL, if_pos (hz z (by simp))]
  dsimp only
  rw [e1, e2]
  simp [e5]

/-- The numeric run extractor is a fixed point on its own output. -/
theorem firstNumRunL_fix (l : List Char) :
    firstNumRunL (firstNumRunL l) = firstNumRunL l := by
  induction l with
  | nil => rfl
  | cons d ds ih =>
    by_cases hd : isDigitC d
    · rw [firstNumRunL, if_pos hd]
      have htw : ∀ x ∈ (d :: ds).takeWhile isDigitC, isDigitC x = true :=
        fun x hx => List.mem_takeWhile_imp hx
      have hne : (d :: ds).takeWhile isDigitC ≠ [] := by
        simp [List.takeWhile, hd]
      split
      · rename_i p r2 heq
        split
        · rename_i hp
          split
          · rename_i heq2
            cases h1 : (d :: ds).takeWhile isDigitC with
            | nil => exact absurd h1 hne
            | cons z zs =>
              dsimp only
              exact firstNumRunL_digits fun x hx => htw x (h1 ▸ hx)
          · rename_i y ys heq2
            cases h1 : (d :: ds).takeWhile isDigitC with
            | nil => exact absurd h1 hne
            | cons z zs =>
              have hy : ∀ x ∈ y :: ys, isDigitC x = true := fun x hx =>
                List.mem_takeWhile_imp (heq2 ▸ hx)
              have hz : ∀ x ∈ z :: zs, isDigitC x = true := fun x hx => htw x (h1 ▸ hx)
              dsimp only
              exact firstNumRunL_digits_dot hz hy
        · cases h1 : (d :: ds).takeWhile isDigitC with
          | nil => exact absurd h1 hne
          | cons z zs =>
            dsimp only
            exact firstNumRunL_digits fun x hx => htw x (h1 ▸ hx)
      · cases h1 : (d :: ds).takeWhile isDigitC with
        | nil => exact absurd h1 hne
        | cons z zs =>
          dsimp only
          exact firstNumRunL_digits fun x hx => htw x (h1 ▸ hx)
    · rw [firstNumRunL, if_neg hd]
      exact ih


/-- `weightClean` is idempotent. -/
theorem weightClean_weightClean (s : String) :
    weightClean (weightClean s) = weightClean s := by
  unfold weightClean
  set out := firstNumRunL ((jsUpper (jsTrim s)).data.map fun c => if c = ',' then '.' else c)
    with hout
  have hchars : ∀ c ∈ out, isDigitC c = true ∨ c = '.' := by
    intro c hc
    exact firstNumRunL_chars _ c (hout ▸ hc)
  have hnws : ∀ c ∈ out, isJsWs c = false := by
    intro c hc
    rcases hchars c hc with h | h
    · exact isDigitC_not_ws h
    · subst h; decide
  have htrim : jsTrim (⟨out⟩ : String) = ⟨out⟩ :=
    jsTrim_eq_self_of_all _ (by simpa using hnws)
  have hupper : jsUpper (⟨out⟩ : String) = ⟨out⟩ := by
    show (⟨out.map upChar⟩ : String) = ⟨out⟩
    have : out.map upChar = out := map_eq_self_of _ fun c hc => by
      rcases hchars c hc with h | h
      · exact upChar_of_digit h
      · subst h; exact upChar_dot
    rw [this]
  rw [htrim, hupper]
  have hcomma : out.map (fun c => if c = ',' then '.' else c) = out := by
    apply map_eq_self_of _
    intro c hc
    rcases hchars c hc with h | h
    · rw [if_neg]
      intro hc2
      subst hc2
      exact absurd h (by decide)
    · subst h; rfl
  show (⟨firstNumRunL ((⟨out⟩ : String).data.map fun c => if c = ',' then '.' else c)⟩ : String) =
    ⟨out⟩
  have hdata : (⟨out⟩ : String).data = out := rfl
  rw [hdata, hcomma, firstNumRunL_fix]

/-! ## Claim theorems -/

/-- `normalize (toValue r)` componentwise: every leaf re-cleaned. -/
theorem normalize_toValue (r : DocumentRecord) :
    normalize (toValue r) =
      { cmr :=
          { exporter := ⟨jsTrim r.cmr.exporter.name, jsTrim r.cmr.exporter.address⟩
            importer := ⟨jsTrim r.cmr.importer.name, jsTrim r.cmr.importer.address,
              jsTrim r.cmr.importer.id⟩
            goods_name := jsTrim r.cmr.goods_name
            vin := vinClean r.cmr.vin
            gross_weight_kg := weightClean r.cmr.gross_weight_kg
            loading_place := jsTrim r.cmr.loading_place
            delivery_place := jsTrim r.cmr.delivery_place
            date := jsTrim r.cmr.date }
        invoice :=
          { exporter := ⟨jsTrim r.invoice.exporter.name, jsTrim r.invoice.exporter.address⟩
            importer := ⟨jsTrim r.invoice.importer.name, jsTrim r.invoice.importer.address,
              jsTrim r.invoice.importer.id⟩
            goods_name := jsTrim r.invoice.goods_name
            vin := vinClean r.invoice.vin
            invoice_no := jsTrim r.invoice.invoice_no
            invoice_date := jsTrim r.invoice.invoice_date
            total_amount := jsTrim r.invoice.total_amount } } := rfl

/-- Candidate value with only `cmr.vin` set. -/
def mkCmrVin (s : String) : Value :=
  .vobj [("cmr", .vobj [("vin", .vstr s)])]

/-- Candidate value with only `invoice.vin` set. -/
def mkInvVin (s : String) : Value :=
  .vobj [("invoice", .vobj [("vin", .vstr s)])]

/-- Candidate value with only `cmr.gross_weight_kg` set. -/
def mkWeight (s : String) : Value :=
  .vobj [("cmr", .vobj [("gross_weight_kg", .vstr s)])]

/-- C1: the Normalizer (modelled from the spec, no implementation exists
under `src/`) is total and conformance-producing: any non-object input is
treated as the empty candidate; `normalize {}` defaults the nested
`exporter`/`importer` objects with empty-string leaves; and for every input
the rendered output passes the `DocumentRecord` schema check (every declared
leaf exists and is a string, nested party objects always exist). -/
theorem C1_normalizer_conformance :
    (∀ x : Value, isObj x = false → normalize x = normalize (Value.vobj [])) ∧
    (normalize (Value.vobj [])).cmr.exporter = ⟨"", ""⟩ ∧
    (normalize (Value.vobj [])).invoice.importer = ⟨"", "", ""⟩ ∧
    (∀ x : Value, checkSchema (toValue (normalize x)) = true) := by
  refine ⟨?_, by decide, by decide, fun x => rfl⟩
  intro x h
  cases x with
  | vnull => rfl
  | vbool b => rfl
  | vnum n => rfl
  | vstr s => rfl
  | varr l => rfl
  | vobj fs => simp [isObj] at h

/-- Witness for C1 at the non-object input `[null]`. -/
theorem C1_normalizer_conformance_witness :
    isObj (Value.varr [Value.vnull]) = false ∧
    normalize (Value.varr [Value.vnull]) = normalize (Value.vobj []) ∧
    checkSchema (toValue (normalize (Value.varr [Value.vnull]))) = true :=
  ⟨rfl, C1_normalizer_conformance.1 _ rfl, C1_normalizer_conformance.2.2.2 _⟩

/-- C2 (counterexample): the `/upload/google-vision` route
(src/server.js:291-300) serves the extractor output without any Normalizer
pass, so a field the extractor reports as `null` reaches the client as
`null`, not as the empty string. -/
theorem C2_claim_counterexample :
    (extractFromVisionText "no relevant content").invoice.vin = none ∧
    (googleVisionAnalysis "no relevant content").invoice.vin = none ∧
    (googleVisionAnalysis "no relevant content").invoice.vin ≠ some "" := by
  refine ⟨by decide, by decide, by decide⟩

/-- C2 (amended): the route's analysis value is exactly the extractor
record — no normalization is applied — and a `null` extractor field is
served as `null`. -/
theorem C2_route_serves_extractor_output :
    (∀ t, googleVisionAnalysis t = extractFromVisionText t) ∧
    (∀ t, (extractFromVisionText t).invoice.vin = none →
      (googleVisionAnalysis t).invoice.vin = none) :=
  ⟨fun _ => rfl, fun _ h => h⟩

/-- Witness for C2 (amended) at the extractor-null input. -/
theorem C2_route_serves_extractor_output_witness :
    (googleVisionAnalysis "no relevant content").invoice.vin = none :=
  C2_route_serves_extractor_output.2 "no relevant content" (by decide)

/-- C3: the Normalizer (modelled from the spec) uppercases and trims VIN
fields, then validates against the 17-character `A-H J-N P R-Z 0-9`
alphabet; a failing input yields the empty string, a valid VIN is returned
unchanged (both on `cmr.vin` and `invoice.vin`). -/
theorem C3_vin_validation :
    (∀ s, (normalize (mkCmrVin s)).cmr.vin = vinClean s ∧
      (normalize (mkInvVin s)).invoice.vin = vinClean s) ∧
    (∀ s, isVin17 (jsUpper (jsTrim s)) = false → (normalize (mkCmrVin s)).cmr.vin = "") ∧
    (∀ s, isVin17 s = true → (normalize (mkCmrVin s)).cmr.vin = s) := by
  refine ⟨fun s => ⟨rfl, rfl⟩, ?_, ?_⟩
  · intro s h
    show vinClean s = ""
    unfold vinClean
    rw [if_neg (by simp [h])]
  · intro s h
    show vinClean s = s
    exact vinClean_of_valid h

/-- Witness for C3 at the spec's three example VIN inputs. -/
theorem C3_vin_validation_witness :
    (normalize (mkCmrVin "1M8GDM9AXKP042788")).cmr.vin = "1M8GDM9AXKP042788" ∧
    (normalize (mkCmrVin "1M8GDM9AXKP04278")).cmr.vin = "" ∧
    (normalize (mkCmrVin "1M8GDM9AXKPO42788")).cmr.vin = "" :=
  ⟨C3_vin_validation.2.2 _ (by decide), C3_vin_validation.2.1 _ (by decide),
    C3_vin_validation.2.1 _ (by decide)⟩

/-- C4 (counterexample): on `"Exporter:\x0c\x0c\x0c\nX"` the first exporter
pattern succeeds and its trimmed capture is the empty string (three form
feeds), yet the extractor field is `null`, not that trimmed capture — the
`|| null` coercion erases a successful all-whitespace capture. -/
theorem C4_claim_counterexample :
    matchOne exporterPats (normalizeText "Exporter:\x0c\x0c\x0c\nX") = some "" ∧
    (extractFromVisionText "Exporter:\x0c\x0c\x0c\nX").cmr.exporter.name = none ∧
    (extractFromVisionText "Exporter:\x0c\x0c\x0c\nX").cmr.exporter.name ≠ some "" := by
  refine ⟨by decide, by decide, by decide⟩

/-- C4 (amended): each field evaluates its ordered pattern list in order;
the first pattern that matches with a nonempty capture ends the search and
the field is that capture trimmed — unless the capture trims to the empty
string, in which case the field is `null`; if no pattern matches (with a
nonempty capture) the field is `null`; the extractor is a total function. -/
theorem C4_ordered_pattern_lists :
    (∀ t, matchOne [] t = none) ∧
    (∀ (p : String → Option String) ps t, p t = none →
      matchOne (p :: ps) t = matchOne ps t) ∧
    (∀ (p : String → Option String) ps t, p t = some "" →
      matchOne (p :: ps) t = matchOne ps t) ∧
    (∀ (p : String → Option String) ps t g, p t = some g → g ≠ "" →
      matchOne (p :: ps) t = some (jsTrim g)) ∧
    (∀ o : Option String, orNull o = none ↔ o = none ∨ o = some "") ∧
    (∀ t,
      (extractFromVisionText t).cmr.vin = orNull (matchOne vinPats (normalizeText t)) ∧
      (extractFromVisionText t).cmr.gross_weight_kg =
        orNull (matchOne grossPats (normalizeText t)) ∧
      (extractFromVisionText t).invoice.invoice_date =
        orNull (matchOne invoiceDatePats (normalizeText t)) ∧
      (extractFromVisionText t).invoice.total_amount =
        orNull (matchOne totalPats (normalizeText t)) ∧
      (extractFromVisionText t).cmr.exporter.name =
        orNull (orNull (matchOne exporterPats (normalizeText t))) ∧
      (extractFromVisionText t).cmr.importer.name =
        orNull (orNull (matchOne importerPats (normalizeText t))) ∧
      (extractFromVisionText t).cmr.goods_name =
        orNull (orNull (matchOne goodsPats (normalizeText t))) ∧
      (extractFromVisionText t).cmr.date = orNull (matchOne cmrDatePats (normalizeText t)) ∧
      (extractFromVisionText t).cmr.loading_place =
        orNull (matchOne loadingPats (normalizeText t)) ∧
      (extractFromVisionText t).cmr.delivery_place =
        orNull (matchOne deliveryPats (normalizeText t)) ∧
      (extractFromVisionText t).invoice.invoice_no =
        pickFirst [orNull ((invoiceNoCore (normalizeText t)).map fun p => jsTrim p.2),
          orNull (matchOne [pInvoiceNoFlawed] (normalizeText t))]) := by
  refine ⟨fun t => rfl, ?_, ?_, ?_, orNull_eq_none_iff,
    fun t => ⟨rfl, rfl, rfl, rfl, rfl, rfl, rfl, rfl, rfl, rfl, rfl⟩⟩
  · intro p ps t h
    exact matchOne_cons_none h
  · intro p ps t h
    exact matchOne_cons_blank h
  · intro p ps t g h hg
    exact matchOne_cons_some h hg

/-- Witness for C4 (amended) at a labelled VIN text. -/
theorem C4_ordered_pattern_lists_witness :
    matchOne vinPats (normalizeText "VIN: 1M8GDM9AXKP042788") =
      some (jsTrim "1M8GDM9AXKP042788") ∧
    orNull (some "") = none :=
  ⟨C4_ordered_pattern_lists.2.2.2.1 pVinLabeled [pVinBare] _ _ (by decide) (by decide),
    (C4_ordered_pattern_lists.2.2.2.2.1 (some "")).mpr (Or.inr rfl)⟩

/-- C5: whenever the label-anchored VIN pattern matches, the extracted VIN
is its (trimmed) capture, regardless of any bare 17-character run; the bare
pattern is consulted only when the labelled pattern matches nowhere in the
text. -/
theorem C5_labeled_vin_preferred :
    (∀ t g, pVinLabeled (normalizeText t) = some g →
      (extractFromVisionText t).cmr.vin = some (jsTrim g)) ∧
    (∀ t, pVinLabeled (normalizeText t) = none →
      (extractFromVisionText t).cmr.vin =
        orNull (matchOne [pVinBare] (normalizeText t))) := by
  constructor
  · intro t g h
    obtain ⟨hne, htrim⟩ := pVinLabeled_inv h
    show orNull (matchOne vinPats (normalizeText t)) = some (jsTrim g)
    rw [show matchOne vinPats (normalizeText t) = some (jsTrim g) from
      matchOne_cons_some h hne]
    exact orNull_some_of_ne (by rw [htrim]; exact hne)
  · intro t h
    show orNull (matchOne vinPats (normalizeText t)) =
      orNull (matchOne [pVinBare] (normalizeText t))
    rw [show matchOne vinPats (normalizeText t) = matchOne [pVinBare] (normalizeText t) from
      matchOne_cons_none h]

/-- Witness for C5: a bare 17-character run appears first, a labelled VIN
later; the labelled one wins. -/
theorem C5_labeled_vin_preferred_witness :
    pVinLabeled (normalizeText "ABCDEFGH12345678X VIN: 1M8GDM9AXKP042788") =
      some "1M8GDM9AXKP042788" ∧
    pVinBare (normalizeText "ABCDEFGH12345678X VIN: 1M8GDM9AXKP042788") =
      some "ABCDEFGH12345678X" ∧
    (extractFromVisionText "ABCDEFGH12345678X VIN: 1M8GDM9AXKP042788").cmr.vin =
      some (jsTrim "1M8GDM9AXKP042788") :=
  ⟨by decide, by decide, C5_labeled_vin_preferred.1 _ _ (by decide)⟩

/-- C6: the Normalizer's weight field (modelled from the spec) uppercases
and trims, substitutes commas by periods, then extracts the first numeric
run, yielding `""` when no digit exists; `"  1234.5 KG "` gives `"1234.5"`
and `"1,234"` gives `"1.234"` (the thousands-separator quirk). -/
theorem C6_weight_extraction :
    (∀ s, (normalize (mkWeight s)).cmr.gross_weight_kg =
      (⟨firstNumRunL ((jsUpper (jsTrim s)).data.map fun c =>
        if c = ',' then '.' else c)⟩ : String)) ∧
    (normalize (mkWeight "  1234.5 KG ")).cmr.gross_weight_kg = "1234.5" ∧
    (normalize (mkWeight "1,234")).cmr.gross_weight_kg = "1.234" ∧
    (∀ s, (∀ c ∈ s.data, isDigitC c = false) →
      (normalize (mkWeight s)).cmr.gross_weight_kg = "") := by
  refine ⟨fun s => rfl, by decide, by decide, ?_⟩
  intro s h
  have h1 : ∀ c ∈ (jsTrim s).data, isDigitC c = false := by
    intro c hc
    exact h c (mem_jsTrimL s.data c hc)
  have h2 : ∀ c ∈ (jsUpper (jsTrim s)).data, isDigitC c = false := by
    intro c hc
    obtain ⟨d, hd, hdc⟩ := List.mem_map.mp hc
    rw [← hdc]
    exact isDigitC_upChar (h1 d hd)
  have h3 : ∀ c ∈ ((jsUpper (jsTrim s)).data.map fun c => if c = ',' then '.' else c),
      isDigitC c = false := by
    intro c hc
    obtain ⟨d, hd, hdc⟩ := List.mem_map.mp hc
    rw [← hdc]
    by_cases hd2 : d = ','
    · rw [if_pos hd2]; decide
    · rw [if_neg hd2]; exact h2 d hd
  show (⟨firstNumRunL ((jsUpper (jsTrim s)).data.map fun c =>
    if c = ',' then '.' else c)⟩ : String) = ""
  rw [firstNumRunL_of_no_digit _ h3]

/-- Witness for C6 at a digit-free weight input. -/
theorem C6_weight_extraction_witness :
    (∀ c ∈ ("NO WEIGHT" : String).data, isDigitC c = false) ∧
    (normalize (mkWeight "NO WEIGHT")).cmr.gross_weight_kg = "" :=
  ⟨by decide, C6_weight_extraction.2.2.2 _ (by decide)⟩

/-- C7: `extractFromVisionText` matches all patterns against the once-
preprocessed text, and the preprocessed text contains no carriage return,
no tab, no two adjacent horizontal-whitespace characters, no three adjacent
newlines, and is trimmed. -/
theorem C7_preprocessing (t : String) :
    extractFromVisionText t = extractFields (normalizeText t) ∧
    (∀ c ∈ (normalizeText t).data, ¬c = '\r') ∧
    (∀ c ∈ (normalizeText t).data, ¬c = '\t') ∧
    hasSub2 isHT isHT (normalizeText t).data = false ∧
    hasSub3 (fun c => decide (c = '\n')) (normalizeText t).data = false ∧
    jsTrim (normalizeText t) = normalizeText t := by
  have hp := normalizeTextL_props t.data
  refine ⟨rfl, hp.1, hp.2.1, hp.2.2.1, hp.2.2.2.1, ?_⟩
  show (⟨jsTrimL (normalizeTextL t.data)⟩ : String) = ⟨normalizeTextL t.data⟩
  rw [hp.2.2.2.2]

/-- Witness for C7 at a text containing a CRLF and a long newline run. -/
theorem C7_preprocessing_witness :
    extractFromVisionText "a\r\n\n\n b" = extractFields (normalizeText "a\r\n\n\n b") ∧
    jsTrim (normalizeText "a\r\n\n\n b") = normalizeText "a\r\n\n\n b" ∧
    ¬('b' : Char) = '\r' ∧
    hasSub2 isHT isHT (normalizeText "a\r\n\n\n b").data = false :=
  ⟨(C7_preprocessing "a\r\n\n\n b").1, (C7_preprocessing "a\r\n\n\n b").2.2.2.2.2,
    (C7_preprocessing "a\r\n\n\n b").2.1 'b' (by decide),
    (C7_preprocessing "a\r\n\n\n b").2.2.2.1⟩

/-- C8: the Normalizer (modelled from the spec) is idempotent: re-normalizing
its own (rendered) output changes nothing. -/
theorem C8_normalize_idempotent (x : Value) :
    normalize (toValue (normalize x)) = normalize x := by
  have h1 : jsTrim (normalize x).cmr.exporter.name = (normalize x).cmr.exporter.name :=
    jsTrim_jsTrim _
  have h2 : jsTrim (normalize x).cmr.exporter.address = (normalize x).cmr.exporter.address :=
    jsTrim_jsTrim _
  have h3 : jsTrim (normalize x).cmr.importer.name = (normalize x).cmr.importer.name :=
    jsTrim_jsTrim _
  have h4 : jsTrim (normalize x).cmr.importer.address = (normalize x).cmr.importer.address :=
    jsTrim_jsTrim _
  have h5 : jsTrim (normalize x).cmr.importer.id = (normalize x).cmr.importer.id :=
    jsTrim_jsTrim _
  have h6 : jsTrim (normalize x).cmr.goods_name = (normalize x).cmr.goods_name :=
    jsTrim_jsTrim _
  have h7 : vinClean (normalize x).cmr.vin = (normalize x).cmr.vin :=
    vinClean_vinClean _
  have h8 : weightClean (normalize x).cmr.gross_weight_kg =
      (normalize x).cmr.gross_weight_kg := weightClean_weightClean _
  have h9 : jsTrim (normalize x).cmr.loading_place = (normalize x).cmr.loading_place :=
    jsTrim_jsTrim _
  have h10 : jsTrim (normalize x).cmr.delivery_place = (normalize x).cmr.delivery_place :=
    jsTrim_jsTrim _
  have h11 : jsTrim (normalize x).cmr.date = (normalize x).cmr.date :=
    jsTrim_jsTrim _
  have h12 : jsTrim (normalize x).invoice.exporter.name =
      (normalize x).invoice.exporter.name := jsTrim_jsTrim _
  have h13 : jsTrim (normalize x).invoice.exporter.address =
      (normalize x).invoice.exporter.address := jsTrim_jsTrim _
  have h14 : jsTrim (normalize x).invoice.importer.name =
      (normalize x).invoice.importer.name := jsTrim_jsTrim _
  have h15 : jsTrim (normalize x).invoice.importer.address =
      (normalize x).invoice.importer.address := jsTrim_jsTrim _
  have h16 : jsTrim (normalize x).invoice.importer.id =
      (normalize x).invoice.importer.id := jsTrim_jsTrim _
  have h17 : jsTrim (normalize x).invoice.goods_name =
      (normalize x).invoice.goods_name := jsTrim_jsTrim _
  have h18 : vinClean (normalize x).invoice.vin = (normalize x).invoice.vin :=
    vinClean_vinClean _
  have h19 : jsTrim (normalize x).invoice.invoice_no =
      (normalize x).invoice.invoice_no := jsTrim_jsTrim _
  have h20 : jsTrim (normalize x).invoice.invoice_date =
      (normalize x).invoice.invoice_date := jsTrim_jsTrim _
  have h21 : jsTrim (normalize x).invoice.total_amount =
      (normalize x).invoice.total_amount := jsTrim_jsTrim _
  rw [normalize_toValue, h1, h2, h3, h4, h5, h6, h7, h8, h9, h10, h11, h12, h13,
    h14, h15, h16, h17, h18, h19, h20, h21]

/-- C9: `extractFromVisionText` gives `cmr` and `invoice` identical values
on their shared fields (one scan feeds both sub-records), and
`extractSimple` shares the VIN likewise. -/
theorem C9_shared_fields (t : String) :
    (extractFromVisionText t).cmr.vin = (extractFromVisionText t).invoice.vin ∧
    (extractFromVisionText t).cmr.goods_name =
      (extractFromVisionText t).invoice.goods_name ∧
    (extractFromVisionText t).cmr.exporter.name =
      (extractFromVisionText t).invoice.exporter.name ∧
    (extractFromVisionText t).cmr.importer.name =
      (extractFromVisionText t).invoice.importer.name ∧
    (extractSimple t).cmr.vin = (extractSimple t).invoice.vin :=
  ⟨rfl, rfl, rfl, rfl, rfl⟩

/-- C10: whenever the invoice-number pattern matches, the field is the
trimmed value run following the label (never the label captured by the
flawed regex's group 1), because the fixed pattern is preferred and both
regexes match the same texts; when neither matches the field is `null`. -/
theorem C10_invoice_no_fixed_preferred :
    (∀ t lab val, invoiceNoCore (normalizeText t) = some (lab, val) →
      (extractFromVisionText t).invoice.invoice_no = some (jsTrim val)) ∧
    (∀ t, invoiceNoCore (normalizeText t) = none →
      (extractFromVisionText t).invoice.invoice_no = none) ∧
    (∀ t, pInvoiceNoFlawed t = none ↔ invoiceNoCore t = none) := by
  refine ⟨?_, ?_, ?_⟩
  · intro t lab val h
    obtain ⟨hne, htrim⟩ := invoiceNoCore_inv h
    show pickFirst [orNull ((invoiceNoCore (normalizeText t)).map fun p => jsTrim p.2),
      orNull (matchOne [pInvoiceNoFlawed] (normalizeText t))] = some (jsTrim val)
    rw [h]
    have hnev : jsTrim val ≠ "" := by rw [htrim]; exact hne
    simp only [Option.map_some']
    rw [orNull_some_of_ne hnev]
    simp [pickFirst, jsTrim_jsTrim, hnev]
  · intro t h
    show pickFirst [orNull ((invoiceNoCore (normalizeText t)).map fun p => jsTrim p.2),
      orNull (matchOne [pInvoiceNoFlawed] (normalizeText t))] = none
    have hflawed : pInvoiceNoFlawed (normalizeText t) = none := by
      unfold pInvoiceNoFlawed
      rw [h]
      rfl
    rw [h, show matchOne [pInvoiceNoFlawed] (normalizeText t) = matchOne [] (normalizeText t)
      from matchOne_cons_none hflawed]
    rfl
  · intro t
    unfold pInvoiceNoFlawed
    simp

/-- Witness for C10 at `"Invoice No: ABC-123"`. -/
theorem C10_invoice_no_fixed_preferred_witness :
    invoiceNoCore (normalizeText "Invoice No: ABC-123") = some ("No", "ABC-123") ∧
    (extractFromVisionText "Invoice No: ABC-123").invoice.invoice_no =
      some (jsTrim "ABC-123") :=
  ⟨by decide,
    C10_invoice_no_fixed_preferred.1 "Invoice No: ABC-123" "No" "ABC-123" (by decide)⟩

end BackendApi
